import Mathlib

/-!
# muduo/file/Uring: request lifecycle of the io_uring bridge

A shallow embedding of `muduo/file/Uring.h` and `muduo/file/Uring.cc`.

* `RWOperation`, `File`, `IOContext` and `UringManager` are records with the
  fields of the C++ classes.
* `size_t`, `unsigned` and `__u64` values are naturals reduced modulo their
  width (`size_t` and `__u64` are 64 bits wide, `unsigned` is 32 bits wide);
  `int` and `off_t` values are integers.
* `std::unordered_map<size_t, IOContext>` is an association list whose
  `emplace` leaves the map alone when the key is present, `std::queue` and
  `std::vector` are lists.
* liburing is the environment.  What the code hands to the ring (the entries
  given to `io_uring_submit`, the completions passed to `io_uring_cqe_seen`)
  and the calls of the user callbacks are recorded in the state; what the ring
  answers (`io_uring_get_sqe`, `io_uring_peek_cqe`) is an input.
* A user callback is opaque: a call is recorded with its arguments, and a
  callback that issues a request of its own is a further submission step.
* A call that may loop takes fuel, one unit for each pass of the loop.
* Shared pointers to `File` are counted in a `World` around the manager: every copy
  and every destruction of a shared pointer the code makes is a step on the list of
  pointers that exist, and destroying the last pointer to a file runs `File::~File`,
  which closes the descriptor.
-/

namespace muduo.file

/-! ## Machine integers -/

/-- Width of `size_t` and of `__u64`, in bits. -/
def SIZE_BITS : Nat := 64

/-- Number of values of a `size_t` (and of a `__u64`). -/
def SIZE_MOD : Nat := 2 ^ SIZE_BITS

/-- Number of values of an `unsigned`. -/
def UINT_MOD : Nat := 2 ^ 32

/-- Conversion `static_cast<unsigned>(n)` of a `size_t`. -/
def toUnsigned (n : Nat) : Nat := n % UINT_MOD

/-- Conversion `static_cast<__u64>(x)` of an `off_t`. -/
def toU64 (x : Int) : Nat := (x % (SIZE_MOD : Int)).toNat

/-- Increment `x++` of a `size_t`. -/
def sizeSucc (x : Nat) : Nat := (x + 1) % SIZE_MOD

/-! ## RWOperation -/

/-- Buffer segment `struct iovec`: base address and length. -/
structure iovec where
  iov_base : Nat
  iov_len : Nat
deriving DecidableEq, Repr

/-- Direction `RWOperation::Dir`. -/
inductive Dir where
  | READ
  | WRITE
deriving DecidableEq, Repr

/-- Class `RWOperation`: one I/O operation on a file, as for preadv/pwritev. -/
structure RWOperation where
  dir_ : Dir
  offset_ : Int
  iovec_ : List iovec
deriving DecidableEq, Repr

/-- Constructor `RWOperation::RWOperation(dir, fileOff, defaultIOv)`. -/
def RWOperation.new (dir : Dir) (fileOff : Int) (defaultIOv : iovec) : RWOperation :=
  { dir_ := dir, offset_ := fileOff, iovec_ := [] ++ [defaultIOv] }

/-- Method `RWOperation::appendIOVec`: `iovec_.emplace_back(iov)`. -/
def RWOperation.appendIOVec (op : RWOperation) (iov : iovec) : RWOperation :=
  { op with iovec_ := op.iovec_ ++ [iov] }

/-- Accessor `RWOperation::dir`. -/
def RWOperation.dir (op : RWOperation) : Dir := op.dir_

/-- Accessor `RWOperation::offset`. -/
def RWOperation.offset (op : RWOperation) : Int := op.offset_

/-- Accessor `RWOperation::rawIov`: the contiguous array of the vector. -/
def RWOperation.rawIov (op : RWOperation) : List iovec := op.iovec_

/-- Accessor `RWOperation::iovSize`. -/
def RWOperation.iovSize (op : RWOperation) : Nat := op.iovec_.length

/-! ## File and IOContext -/

/-- A user callback `RWCallBack`: the closure is opaque, only its identity is kept. -/
structure RWCallBack where
  id : Nat
deriving DecidableEq, Repr

/-- Class `File`: the owning manager (its address), the open descriptor, and the
weak self-reference held by the base class `std::enable_shared_from_this<File>`
(`true` when it refers to the object, `false` while it is empty). -/
structure File where
  uring_ : Nat
  fd_ : Int
  weak_this_ : Bool
deriving DecidableEq, Repr

/-- Accessor `File::fd`. -/
def File.fd (f : File) : Int := f.fd_

/-- Class `IOContext`: a registered I/O; `file_` is the target of the shared pointer. -/
structure IOContext where
  file_ : File
  rwOp_ : RWOperation
  callback_ : RWCallBack
deriving DecidableEq, Repr

/-- Accessor `IOContext::file`. -/
def IOContext.file (c : IOContext) : File := c.file_

/-- Accessor `IOContext::rwOp`. -/
def IOContext.rwOp (c : IOContext) : RWOperation := c.rwOp_

/-- Method `IOContext::runCallBack` calls `callback_(retval, rwOp_)`; the call is
recorded as this triple. -/
structure Invocation where
  callback : RWCallBack
  retval : Int
  op : RWOperation
deriving DecidableEq, Repr

/-! ## The ring, as seen from the manager -/

/-- Operation code of a submission entry. -/
inductive Opcode where
  | READV
  | WRITEV
deriving DecidableEq, Repr

/-- Submission entry `struct io_uring_sqe`, the fields the manager sets. -/
structure io_uring_sqe where
  opcode : Opcode
  fd : Int
  addr : List iovec
  len : Nat
  off : Nat
  user_data : Nat
deriving DecidableEq, Repr

/-- Library call `io_uring_prep_readv(sqe, fd, iovecs, nr_vecs, offset)`. -/
def io_uring_prep_readv (fd : Int) (iovecs : List iovec) (nr_vecs : Nat) (offset : Nat) :
    io_uring_sqe :=
  { opcode := Opcode.READV, fd := fd, addr := iovecs, len := nr_vecs, off := offset,
    user_data := 0 }

/-- Library call `io_uring_prep_writev(sqe, fd, iovecs, nr_vecs, offset)`. -/
def io_uring_prep_writev (fd : Int) (iovecs : List iovec) (nr_vecs : Nat) (offset : Nat) :
    io_uring_sqe :=
  { opcode := Opcode.WRITEV, fd := fd, addr := iovecs, len := nr_vecs, off := offset,
    user_data := 0 }

/-- Library call `io_uring_sqe_set_data64(sqe, data)`. -/
def io_uring_sqe_set_data64 (sqe : io_uring_sqe) (data : Nat) : io_uring_sqe :=
  { sqe with user_data := data }

/-- Completion entry `struct io_uring_cqe`: `user_data` and `res`. -/
structure io_uring_cqe where
  user_data : Nat
  res : Int
deriving DecidableEq, Repr

/-- Library call `io_uring_cqe_get_data64(cqe)`. -/
def io_uring_cqe_get_data64 (cqe : io_uring_cqe) : Nat := cqe.user_data

/-- Outcome of `io_uring_peek_cqe`: `-EAGAIN` (nothing available), another
non-zero return value (only logged by the caller), or `0` with a completion,
which `assert(cqe != nullptr)` takes to be present. -/
inductive PeekResult where
  | eagain
  | error
  | cqe (c : io_uring_cqe)
deriving DecidableEq, Repr

/-! ## std::unordered_map<size_t, IOContext> -/

/-- The keys of the map. -/
def mapKeys (m : List (Nat × IOContext)) : List Nat := m.map Prod.fst

/-- Lookup `unordered_map::at`: `none` stands for `std::out_of_range`. -/
def mapAt : List (Nat × IOContext) → Nat → Option IOContext
  | [], _ => none
  | (k, c) :: m, i => if k = i then some c else mapAt m i

/-- Insertion `unordered_map::emplace`: nothing is inserted when the key is present. -/
def mapEmplace (m : List (Nat × IOContext)) (i : Nat) (c : IOContext) :
    List (Nat × IOContext) :=
  if i ∈ mapKeys m then m else m ++ [(i, c)]

/-- Removal `unordered_map::erase(key)`. -/
def mapErase (m : List (Nat × IOContext)) (i : Nat) : List (Nat × IOContext) :=
  m.filter (fun e => decide (e.1 ≠ i))

/-! ## UringManager -/

/-- What can end a call abnormally: `std::out_of_range` from `unordered_map::at`,
`std::bad_weak_ptr` from `shared_from_this`. -/
inductive Exception where
  | out_of_range
  | bad_weak_ptr
deriving DecidableEq, Repr

/-- Class `UringManager`: the members `activeIOs_`, `currentIdx_`, `pendingIOs_`,
and the effects of the manager on its surroundings: the entries handed to
`io_uring_submit` (`submitted`), the completions passed to `io_uring_cqe_seen`
(`seen`), and the callback calls made (`invoked`), each in order. -/
structure UringManager where
  activeIOs_ : List (Nat × IOContext)
  currentIdx_ : Nat
  pendingIOs_ : List IOContext
  submitted : List io_uring_sqe
  seen : List io_uring_cqe
  invoked : List Invocation
deriving DecidableEq, Repr

/-- Constructor `UringManager::UringManager`: `currentIdx_ = 0`, empty containers,
a fresh ring of `URING_ENTRYS` entries. -/
def UringManager.new : UringManager :=
  { activeIOs_ := [], currentIdx_ := 0, pendingIOs_ := [], submitted := [], seen := [],
    invoked := [] }

/-- Modelled from the spec: `EventLoop::runInLoop` (muduo/net/EventLoop) is not among
the sources at hand. It runs the closure on the owning thread of the loop; all engine
state is touched on that thread only, where the closure is executed at once (the note
at Uring_unittest.cc:61 says so), as one step. -/
def runInLoop (f : UringManager → UringManager) (s : UringManager) : UringManager := f s

/-- Method `IOContext::runCallBack`: `callback_(retval, rwOp_)`. -/
def IOContext.runCallBack (c : IOContext) (retval : Int) (s : UringManager) : UringManager :=
  { s with invoked := s.invoked ++ [{ callback := c.callback_, retval := retval, op := c.rwOp_ }] }

/-- Method `UringManager::appendIOContext`. `sqeFree` tells whether `io_uring_get_sqe`
returned an entry (`false` is `sqe == NULL`); `io_uring_submit` hands over the one
prepared entry, as `assert(ret == 1)` states. -/
def UringManager.appendIOContext (sqeFree : Bool) (ctx : IOContext) (s : UringManager) :
    UringManager :=
  runInLoop (fun s =>
    if sqeFree = false then
      { s with pendingIOs_ := s.pendingIOs_ ++ [ctx] }
    else
      let fd := ctx.file.fd
      let rwOp := ctx.rwOp
      let sqe :=
        if rwOp.dir = Dir.READ then
          io_uring_prep_readv fd rwOp.rawIov (toUnsigned rwOp.iovSize) (toU64 rwOp.offset)
        else
          io_uring_prep_writev fd rwOp.rawIov (toUnsigned rwOp.iovSize) (toU64 rwOp.offset)
      let ioIdx := s.currentIdx_
      let s := { s with currentIdx_ := sizeSucc s.currentIdx_ }
      let sqe := io_uring_sqe_set_data64 sqe ioIdx
      let s := { s with submitted := s.submitted ++ [sqe] }
      { s with activeIOs_ := mapEmplace s.activeIOs_ ioIdx ctx }) s

/-- The body of the loop of `UringManager::handleCQE` on a peeked completion: look the
context up, run its callback, erase it, mark the completion seen, then handle one
pending request. `sqeFree` is the answer of `io_uring_get_sqe` should a pending request
be resubmitted. -/
def UringManager.handleCompletion (cqe : io_uring_cqe) (sqeFree : Bool) (s : UringManager) :
    Except Exception UringManager :=
  let ioIdx := io_uring_cqe_get_data64 cqe
  match mapAt s.activeIOs_ ioIdx with
  | none => Except.error Exception.out_of_range
  | some ioCtx =>
    let s := ioCtx.runCallBack cqe.res s
    let s := { s with activeIOs_ := mapErase s.activeIOs_ ioIdx }
    let s := { s with seen := s.seen ++ [cqe] }
    match s.pendingIOs_ with
    | [] => Except.ok s
    | pendCtx :: rest => Except.ok (UringManager.appendIOContext sqeFree pendCtx { s with pendingIOs_ := rest })

/-- How a call ends: it returns, it throws, or it is still running when the fuel
of the model is used up. -/
inductive Outcome where
  | returned (s : UringManager)
  | threw (e : Exception)
  | running
deriving DecidableEq, Repr

/-- Method `UringManager::handleCQE`: the `while (true)` loop. `ring n` is what the
ring answers in pass `n` from now: the outcome of `io_uring_peek_cqe` and the answer of
`io_uring_get_sqe` for the resubmission of that pass. Each pass uses one unit of fuel. -/
def UringManager.handleCQE (ring : Nat → PeekResult × Bool) : Nat → UringManager → Outcome
  | 0, _ => Outcome.running
  | fuel + 1, s =>
    match (ring 0).1 with
    | PeekResult.eagain => Outcome.returned s
    | PeekResult.error => UringManager.handleCQE (fun n => ring (n + 1)) fuel s
    | PeekResult.cqe c =>
      match s.handleCompletion c (ring 0).2 with
      | Except.error e => Outcome.threw e
      | Except.ok s1 => UringManager.handleCQE (fun n => ring (n + 1)) fuel s1

/-! ## Runs of the engine -/

/-- The ring answering the passes listed and reporting `-EAGAIN` afterwards. -/
def ringOf (l : List (PeekResult × Bool)) : Nat → PeekResult × Bool :=
  fun n => l.getD n (PeekResult.eagain, false)

/-- One step of a run: a call of `appendIOContext`, or a call of `handleCQE` during
which the ring answers the passes listed and then reports `-EAGAIN`. -/
inductive Event where
  | submit (sqeFree : Bool) (ctx : IOContext)
  | drain (passes : List (PeekResult × Bool))
deriving DecidableEq, Repr

/-- The effect of one step. -/
def step (e : Event) (s : UringManager) : Outcome :=
  match e with
  | Event.submit sqeFree ctx => Outcome.returned (s.appendIOContext sqeFree ctx)
  | Event.drain passes => s.handleCQE (ringOf passes) (passes.length + 1)

/-- The effect of a sequence of steps; a step that does not return ends the run. -/
def run : List Event → UringManager → Outcome
  | [], s => Outcome.returned s
  | e :: t, s =>
    match step e s with
    | Outcome.returned s1 => run t s1
    | o => o

/-- The state after the callback call, the erasure and `io_uring_cqe_seen`, that is
before the pending queue is looked at. -/
def UringManager.afterCallback (s : UringManager) (cqe : io_uring_cqe) (ioCtx : IOContext) :
    UringManager :=
  { s with invoked := s.invoked ++
            [{ callback := ioCtx.callback_, retval := cqe.res, op := ioCtx.rwOp_ }],
           activeIOs_ := mapErase s.activeIOs_ cqe.user_data,
           seen := s.seen ++ [cqe] }

/-- The entry that `appendIOContext` prepares for `ctx` and tags with `ioIdx`. -/
def preparedSqe (ctx : IOContext) (ioIdx : Nat) : io_uring_sqe :=
  io_uring_sqe_set_data64
    (if ctx.rwOp.dir = Dir.READ then
      io_uring_prep_readv ctx.file.fd ctx.rwOp.rawIov (toUnsigned ctx.rwOp.iovSize)
        (toU64 ctx.rwOp.offset)
    else
      io_uring_prep_writev ctx.file.fd ctx.rwOp.rawIov (toUnsigned ctx.rwOp.iovSize)
        (toU64 ctx.rwOp.offset))
    ioIdx

/-! ## Calls of handleCQE with finitely many completions -/

/-- The passes of `handleCQE` over a finite list of answers of the ring, after which
the ring reports `-EAGAIN`. -/
def drainList : List (PeekResult × Bool) → UringManager → Outcome
  | [], s => Outcome.returned s
  | (PeekResult.eagain, _) :: _, s => Outcome.returned s
  | (PeekResult.error, _) :: l, s => drainList l s
  | (PeekResult.cqe c, b) :: l, s =>
    match s.handleCompletion c b with
    | Except.error e => Outcome.threw e
    | Except.ok s1 => drainList l s1

/-! ## Invariants of the registry -/

/-- What identifies a request to its issuer: the callback and the descriptor. -/
def requestOf (c : IOContext) : RWCallBack × RWOperation := (c.callback_, c.rwOp_)

/-- The requests in the active map. -/
def UringManager.activeRequests (s : UringManager) : List (RWCallBack × RWOperation) :=
  s.activeIOs_.map (fun e => requestOf e.2)

/-- The requests in the pending queue. -/
def UringManager.pendingRequests (s : UringManager) : List (RWCallBack × RWOperation) :=
  s.pendingIOs_.map requestOf

/-- The requests whose callback has been called. -/
def UringManager.completedRequests (s : UringManager) : List (RWCallBack × RWOperation) :=
  s.invoked.map (fun i => (i.callback, i.op))

/-- The requests issued in a run: the arguments of its `appendIOContext` calls. -/
def requests : List Event → List IOContext
  | [] => []
  | Event.submit _ c :: t => c :: requests t
  | Event.drain _ :: t => requests t

/-- All requests the manager accounts for, as a multiset. -/
def UringManager.bag (s : UringManager) : Multiset (RWCallBack × RWOperation) :=
  (s.activeRequests : Multiset (RWCallBack × RWOperation)) + (s.pendingRequests : Multiset _)
    + (s.completedRequests : Multiset _)

/-- The counter is the number of entries submitted so far (modulo the width of
`size_t`), the keys of the active map are distinct, and as long as fewer than `2 ^ 64`
entries have been submitted every key is an index handed out earlier. -/
def Inv (s : UringManager) : Prop :=
  s.currentIdx_ = s.submitted.length % SIZE_MOD ∧
  (mapKeys s.activeIOs_).Nodup ∧
  (s.submitted.length < SIZE_MOD → ∀ k ∈ mapKeys s.activeIOs_, k < s.submitted.length)

/-- Going from `s` to `s1` while the requests `rs` are issued keeps the invariant, never
forgets a submitted entry, and, as long as fewer than `2 ^ 64` entries have been
submitted, accounts for every request. -/
def Rel (rs : List IOContext) (s s1 : UringManager) : Prop :=
  Inv s →
    Inv s1 ∧ s.submitted.length ≤ s1.submitted.length ∧
    (s1.submitted.length < SIZE_MOD →
      s1.bag = s.bag + ((rs.map requestOf : List _) : Multiset (RWCallBack × RWOperation)))

/-- The entries submitted carry the tags `0, 1, 2, ...` in order, and every entry of
the active map is the request for which the entry tagged with its key was prepared; both
as long as fewer than `2 ^ 64` entries have been submitted. -/
def Tagged (s : UringManager) : Prop :=
  s.submitted.length < SIZE_MOD →
    s.submitted.map (fun e => e.user_data) = List.range s.submitted.length ∧
    ∀ k c, (k, c) ∈ s.activeIOs_ → s.submitted[k]? = some (preparedSqe c k)

/-- The file of the example requests: descriptor 3, held through a shared pointer. -/
def exampleFile : File := { uring_ := 1, fd_ := 3, weak_this_ := true }

/-- The request number `n` of the examples: a read of 13 bytes at offset 0 into its own
buffer, with its own callback. -/
def exampleCtx (n : Nat) : IOContext :=
  { file_ := exampleFile,
    rwOp_ := RWOperation.new Dir.READ 0 { iov_base := 4096 * n, iov_len := 13 },
    callback_ := { id := n } }

/-- The state in which a run ended, `d` if it did not return. -/
def Outcome.stateD (o : Outcome) (d : UringManager) : UringManager :=
  match o with
  | Outcome.returned s => s
  | _ => d

/-- Two requests, the second finding no free entry, then the completion of the first,
which resubmits the second. -/
def exampleRun : List Event :=
  [Event.submit true (exampleCtx 0), Event.submit false (exampleCtx 1),
   Event.drain [(PeekResult.cqe { user_data := 0, res := 13 }, true)]]

/-- The state in which `exampleRun` ends. -/
def exampleEnd : UringManager :=
  Outcome.stateD (run exampleRun UringManager.new) UringManager.new

/-- The state after the two submissions of `exampleRun`: request 0 active, request 1
pending. -/
def exampleMid : UringManager :=
  (UringManager.new.appendIOContext true (exampleCtx 0)).appendIOContext false (exampleCtx 1)

/-- The state `exampleMid` after two more requests found no free entry: request 0
active, requests 1, 2, 3 pending in this order. -/
def exampleQueued : UringManager :=
  (exampleMid.appendIOContext false (exampleCtx 2)).appendIOContext false (exampleCtx 3)

/-- A write of two segments (13 and 7 bytes) at offset 4096, with callback 7. -/
def exampleWriteCtx : IOContext :=
  { file_ := exampleFile,
    rwOp_ := (RWOperation.new Dir.WRITE 4096 { iov_base := 8192, iov_len := 13 }).appendIOVec
      { iov_base := 12288, iov_len := 7 },
    callback_ := { id := 7 } }

/-- Requests `1 .. n`, each issued with a free entry and completed before the next is
issued. -/
def churn (c : IOContext) : Nat → List Event
  | 0 => []
  | n + 1 => churn c n ++
      [Event.submit true c, Event.drain [(PeekResult.cqe { user_data := n + 1, res := 0 }, false)]]

/-- A first request that stays in flight, followed by `n` requests that complete. -/
def longRun (c0 c1 : IOContext) (n : Nat) : List Event :=
  Event.submit true c0 :: churn c1 n

/-- The number of requests that complete in the run that wraps the counter around. -/
def WRAP : Nat := 18446744073709551615

/-! ## Termination of handleCQE -/

/-- The completions among the first `m` answers of the ring, in order. -/
def peeked (ring : Nat → PeekResult × Bool) : Nat → List io_uring_cqe
  | 0 => []
  | m + 1 =>
    (match (ring 0).1 with
     | PeekResult.cqe c => [c]
     | _ => []) ++ peeked (fun i => ring (i + 1)) m

/-- The ring whose `io_uring_peek_cqe` fails at every call. -/
def failingRing : Nat → PeekResult × Bool := fun _ => (PeekResult.error, false)

/-! ## File handles -/

/-- Whether `std::enable_shared_from_this<File>` is an accessible base class of `File`.
The class is declared `class File: std::enable_shared_from_this<File>`: a base of a
`class` named without an access specifier is private, so it is not. -/
def File.esftBaseAccessible : Bool := false

/-- Call `std::make_shared<File>(uring, fd)`: the shared pointer that adopts the new
object sets the weak self-reference only when the `enable_shared_from_this` base is an
accessible one. -/
def File.make_shared (uring : Nat) (fd : Int) : File :=
  { uring_ := uring, fd_ := fd, weak_this_ := File.esftBaseAccessible }

/-- Call `shared_from_this()`: a shared pointer made from the weak self-reference, or
`std::bad_weak_ptr` when that is empty. -/
def File.shared_from_this (f : File) : Except Exception File :=
  if f.weak_this_ = true then Except.ok f else Except.error Exception.bad_weak_ptr

/-- Method `UringManager::registerFile`. `mgr` is the address of the manager and `fd`
what `::open(filePath.c_str(), O_RDWR)` returned; `none` is the null shared pointer. -/
def UringManager.registerFile (mgr : Nat) (fd : Int) : Option File :=
  if fd = -1 then none else some (File.make_shared mgr fd)

/-- Method `File::asyncRW`: build the context from `shared_from_this()`, the operation
and the callback, and pass it to `appendIOContext`. -/
def File.asyncRW (f : File) (op : RWOperation) (callBack : RWCallBack) (sqeFree : Bool)
    (s : UringManager) : Except Exception UringManager :=
  match f.shared_from_this with
  | Except.error e => Except.error e
  | Except.ok self =>
    Except.ok (s.appendIOContext sqeFree { file_ := self, rwOp_ := op, callback_ := callBack })

/-! ## Shared ownership of files -/

/-- Destructor `File::~File`: `::close(fd_)`, on the list of open descriptors. -/
def File.destroy (f : File) (openFds : List Int) : List Int := openFds.erase f.fd_

/-- The manager together with what keeps files alive: the address of the manager, the
shared pointers to `File` that the application holds (`handles`), every shared pointer to
a `File` that exists, each listed by its target (`sharedPtrs`, so that the use count of
`f` is the number of times `f` occurs), and the descriptors that are open. -/
structure World where
  mgr : UringManager
  addr : Nat
  handles : List File
  sharedPtrs : List File
  openFds : List Int
deriving DecidableEq, Repr

/-- The world of a fresh manager at address `addr`: no file is open. -/
def World.new (addr : Nat) : World :=
  { mgr := UringManager.new, addr := addr, handles := [], sharedPtrs := [], openFds := [] }

/-- The use count of the shared pointers to `f`. -/
def World.useCount (w : World) (f : File) : Nat := w.sharedPtrs.count f

/-- The files of the entries of the active map. -/
def UringManager.activeFiles (s : UringManager) : List File :=
  s.activeIOs_.map (fun e => e.2.file_)

/-- The files of the requests in the pending queue. -/
def UringManager.pendingFiles (s : UringManager) : List File :=
  s.pendingIOs_.map (fun c => c.file_)

/-- A shared pointer to `f` is copied: the use count goes up by one. -/
def World.copyPtr (w : World) (f : File) : World :=
  { w with sharedPtrs := f :: w.sharedPtrs }

/-- A shared pointer to `f` is destroyed: the use count goes down by one, and when no
pointer is left the `File` is destroyed, which closes its descriptor. -/
def World.dropPtr (w : World) (f : File) : World :=
  if f ∈ w.sharedPtrs.erase f then { w with sharedPtrs := w.sharedPtrs.erase f }
  else { w with sharedPtrs := w.sharedPtrs.erase f, openFds := f.destroy w.openFds }

/-- Method `UringManager::registerFile` in the world. `fd` is what `::open` returned: -1,
or a descriptor that was not open before and is open now. The new `File` is owned by the
one shared pointer handed to the application. -/
def World.registerFile (w : World) (fd : Int) : World :=
  if fd ∈ w.openFds then w
  else
    match UringManager.registerFile w.addr fd with
    | none => w
    | some f =>
      { w with handles := f :: w.handles, sharedPtrs := f :: w.sharedPtrs,
               openFds := fd :: w.openFds }

/-- The application copies a handle it holds. -/
def World.copyHandle (w : World) (h : File) : World :=
  if h ∈ w.handles then ({ w with handles := h :: w.handles }).copyPtr h else w

/-- The application lets go of a handle it holds. -/
def World.dropHandle (w : World) (h : File) : World :=
  if h ∈ w.handles then ({ w with handles := w.handles.erase h }).dropPtr h else w

/-- Method `UringManager::appendIOContext(IOContext &&ctx)` in the world; the shared
pointer inside `ctx` is one the caller owns. The closure takes the context over; inside
it `std::move(ctx)` of the captured (const) context copies it into the container, which
`pendingIOs_.emplace` always keeps and `activeIOs_.emplace` keeps when the key is new;
the context of the closure is destroyed when the closure has run. -/
def World.appendIOContext (w : World) (sqeFree : Bool) (ctx : IOContext) : World :=
  let stored : Bool :=
    decide (sqeFree = false) || decide (w.mgr.currentIdx_ ∉ mapKeys w.mgr.activeIOs_)
  let w1 : World := { w with mgr := w.mgr.appendIOContext sqeFree ctx }
  let w2 : World := if stored = true then w1.copyPtr ctx.file_ else w1
  w2.dropPtr ctx.file_

/-- The body of the loop of `handleCQE` in the world: `activeIOs_.erase` destroys the
stored context and with it its shared pointer; a pending context is moved out of the
queue and handed to `appendIOContext`. -/
def World.handleCompletion (w : World) (cqe : io_uring_cqe) (sqeFree : Bool) :
    Except Exception World :=
  match mapAt w.mgr.activeIOs_ (io_uring_cqe_get_data64 cqe) with
  | none => Except.error Exception.out_of_range
  | some ioCtx =>
    let w1 : World := ({ w with mgr := w.mgr.afterCallback cqe ioCtx }).dropPtr ioCtx.file_
    match w1.mgr.pendingIOs_ with
    | [] => Except.ok w1
    | pendCtx :: rest =>
      Except.ok
        (World.appendIOContext { w1 with mgr := { w1.mgr with pendingIOs_ := rest } }
          sqeFree pendCtx)

/-- The passes of `handleCQE` in the world over a finite list of answers of the ring,
after which the ring reports `-EAGAIN`. -/
def World.drainList : List (PeekResult × Bool) → World → Except Exception World
  | [], w => Except.ok w
  | (PeekResult.eagain, _) :: _, w => Except.ok w
  | (PeekResult.error, _) :: l, w => World.drainList l w
  | (PeekResult.cqe c, b) :: l, w =>
    match w.handleCompletion c b with
    | Except.error e => Except.error e
    | Except.ok w1 => World.drainList l w1

/-- Method `File::asyncRW` in the world, called through the handle `h`: the context is
built around the pointer `shared_from_this()` yields, a new owner of the file. -/
def World.asyncRW (w : World) (sqeFree : Bool) (h : File) (op : RWOperation)
    (callBack : RWCallBack) : Except Exception World :=
  match h.shared_from_this with
  | Except.error e => Except.error e
  | Except.ok self =>
    Except.ok ((w.copyPtr self).appendIOContext sqeFree
      { file_ := self, rwOp_ := op, callback_ := callBack })

/-- One step of a run of the world: a file is registered; the application copies or lets
go of a handle; a context built around a copy of a handle is passed to `appendIOContext`
(what `asyncRW` does once it has its pointer); `asyncRW` itself is called through a
handle; `handleCQE` runs over the answers listed. -/
inductive WorldEvent where
  | registerFile (fd : Int)
  | copyHandle (h : File)
  | dropHandle (h : File)
  | submit (sqeFree : Bool) (h : File) (op : RWOperation) (callBack : RWCallBack)
  | asyncRW (sqeFree : Bool) (h : File) (op : RWOperation) (callBack : RWCallBack)
  | drain (passes : List (PeekResult × Bool))
deriving DecidableEq, Repr

/-- The effect of one step. An exception thrown by `asyncRW` reaches the application
with nothing changed; an exception thrown by `handleCQE` ends the run. -/
def World.step (e : WorldEvent) (w : World) : Except Exception World :=
  match e with
  | WorldEvent.registerFile fd => Except.ok (w.registerFile fd)
  | WorldEvent.copyHandle h => Except.ok (w.copyHandle h)
  | WorldEvent.dropHandle h => Except.ok (w.dropHandle h)
  | WorldEvent.submit sqeFree h op callBack =>
    if h ∈ w.handles then
      Except.ok ((w.copyPtr h).appendIOContext sqeFree
        { file_ := h, rwOp_ := op, callback_ := callBack })
    else Except.ok w
  | WorldEvent.asyncRW sqeFree h op callBack =>
    if h ∈ w.handles then
      match w.asyncRW sqeFree h op callBack with
      | Except.ok w1 => Except.ok w1
      | Except.error _ => Except.ok w
    else Except.ok w
  | WorldEvent.drain passes => World.drainList passes w

/-- The effect of a sequence of steps. -/
def World.run : List WorldEvent → World → Except Exception World
  | [], w => Except.ok w
  | e :: t, w =>
    match World.step e w with
    | Except.ok w1 => World.run t w1
    | Except.error x => Except.error x

/-- The shared pointers accounted for: those of the application and those inside the
entries of the active map and of the pending queue. -/
def World.holders (w : World) : List File :=
  w.handles ++ w.mgr.activeFiles ++ w.mgr.pendingFiles

/-- The shared pointers that exist are those of the holders and those in `extra`. -/
def Own (w : World) (extra : List File) : Prop :=
  (w.sharedPtrs : Multiset File) = (w.holders : Multiset File) + (extra : Multiset File)

/-- The descriptor of every file that has an owner is open, every open descriptor is
that of a file that has an owner, every file is one made by `registerFile`, the keys of
the active map are distinct and no descriptor is listed twice. -/
def Good (w : World) : Prop :=
  (∀ f ∈ w.sharedPtrs, f.fd_ ∈ w.openFds) ∧
  (∀ fd ∈ w.openFds, File.make_shared w.addr fd ∈ w.sharedPtrs) ∧
  (∀ f ∈ w.sharedPtrs, f = File.make_shared w.addr f.fd_) ∧
  (mapKeys w.mgr.activeIOs_).Nodup ∧
  w.openFds.Nodup

/-- The handle `registerFile` hands out for descriptor 3 with the manager at address 1. -/
def exampleHandle : File := File.make_shared 1 3

/-- A file is registered, two requests on it are handed to `appendIOContext` (the second
finds no free entry), and the application lets go of its handle. -/
def exampleWorldRun : List WorldEvent :=
  [WorldEvent.registerFile 3,
   WorldEvent.submit true exampleHandle (exampleCtx 0).rwOp_ (exampleCtx 0).callback_,
   WorldEvent.submit false exampleHandle (exampleCtx 1).rwOp_ (exampleCtx 1).callback_,
   WorldEvent.dropHandle exampleHandle]

/-- The first request of `exampleWorldRun` completes and the second is resubmitted. -/
def exampleWorldRun1 : List WorldEvent :=
  exampleWorldRun ++ [WorldEvent.drain [(PeekResult.cqe { user_data := 0, res := 13 }, true)]]

/-- Both requests of `exampleWorldRun` complete. -/
def exampleWorldRun2 : List WorldEvent :=
  exampleWorldRun1 ++ [WorldEvent.drain [(PeekResult.cqe { user_data := 1, res := 13 }, true)]]

/-- The world in which a run from `World.new 1` ends, the fresh world if it threw. -/
def exampleWorld (t : List WorldEvent) : World :=
  match World.run t (World.new 1) with
  | Except.ok w => w
  | Except.error _ => World.new 1

/-! # Lemmas -/

theorem foldl_appendIOVec (segs : List iovec) (op : RWOperation) :
    (segs.foldl RWOperation.appendIOVec op).dir_ = op.dir_ ∧
    (segs.foldl RWOperation.appendIOVec op).offset_ = op.offset_ ∧
    (segs.foldl RWOperation.appendIOVec op).iovec_ = op.iovec_ ++ segs := by
  induction segs generalizing op with
  | nil => simp
  | cons x xs ih =>
    obtain ⟨h1, h2, h3⟩ := ih (op.appendIOVec x)
    simp only [List.foldl_cons]
    refine ⟨h1, h2, ?_⟩
    rw [h3]
    simp [RWOperation.appendIOVec]

theorem mapAt_erase_self (m : List (Nat × IOContext)) (i : Nat) :
    mapAt (mapErase m i) i = none := by
  induction m with
  | nil => rfl
  | cons e m ih =>
    obtain ⟨k, c⟩ := e
    by_cases h : k = i
    · simpa [mapErase, h] using ih
    · simpa [mapErase, h, mapAt] using ih

theorem mapKeys_erase_subset (m : List (Nat × IOContext)) (i k : Nat)
    (h : k ∈ mapKeys (mapErase m i)) : k ∈ mapKeys m ∧ k ≠ i := by
  simp only [mapKeys, mapErase, List.mem_map, List.mem_filter] at h ⊢
  obtain ⟨e, ⟨he, hne⟩, rfl⟩ := h
  exact ⟨⟨e, he, rfl⟩, by simpa using hne⟩

theorem handleCompletion_nil {s : UringManager} {cqe : io_uring_cqe} {ioCtx : IOContext}
    (sqeFree : Bool) (h : mapAt s.activeIOs_ cqe.user_data = some ioCtx)
    (hp : s.pendingIOs_ = []) :
    s.handleCompletion cqe sqeFree = Except.ok (s.afterCallback cqe ioCtx) := by
  simp [UringManager.handleCompletion, io_uring_cqe_get_data64, h, hp,
    IOContext.runCallBack, UringManager.afterCallback]

theorem handleCompletion_cons {s : UringManager} {cqe : io_uring_cqe} {ioCtx : IOContext}
    (sqeFree : Bool) (h : mapAt s.activeIOs_ cqe.user_data = some ioCtx)
    {pendCtx : IOContext} {rest : List IOContext} (hp : s.pendingIOs_ = pendCtx :: rest) :
    s.handleCompletion cqe sqeFree = Except.ok
      (UringManager.appendIOContext sqeFree pendCtx
        { s.afterCallback cqe ioCtx with pendingIOs_ := rest }) := by
  simp [UringManager.handleCompletion, io_uring_cqe_get_data64, h, hp,
    IOContext.runCallBack, UringManager.afterCallback]

theorem handleCompletion_none {s : UringManager} {cqe : io_uring_cqe} (sqeFree : Bool)
    (h : mapAt s.activeIOs_ cqe.user_data = none) :
    s.handleCompletion cqe sqeFree = Except.error Exception.out_of_range := by
  simp [UringManager.handleCompletion, io_uring_cqe_get_data64, h]

theorem handleCQE_single {s s1 : UringManager} {cqe : io_uring_cqe} {sqeFree : Bool}
    (h : s.handleCompletion cqe sqeFree = Except.ok s1) :
    s.handleCQE (ringOf [(PeekResult.cqe cqe, sqeFree)]) 2 = Outcome.returned s1 := by
  simp [UringManager.handleCQE, ringOf, h]

theorem appendIOContext_false (ctx : IOContext) (s : UringManager) :
    s.appendIOContext false ctx = { s with pendingIOs_ := s.pendingIOs_ ++ [ctx] } := by
  simp [UringManager.appendIOContext, runInLoop]

theorem appendIOContext_true (ctx : IOContext) (s : UringManager) :
    s.appendIOContext true ctx =
      { s with currentIdx_ := sizeSucc s.currentIdx_,
               submitted := s.submitted ++ [preparedSqe ctx s.currentIdx_],
               activeIOs_ := mapEmplace s.activeIOs_ s.currentIdx_ ctx } := by
  simp [UringManager.appendIOContext, runInLoop, preparedSqe]

theorem preparedSqe_fields (ctx : IOContext) (ioIdx : Nat) :
    (preparedSqe ctx ioIdx).opcode
      = (if ctx.rwOp_.dir_ = Dir.READ then Opcode.READV else Opcode.WRITEV) ∧
    (preparedSqe ctx ioIdx).fd = ctx.file_.fd_ ∧
    (preparedSqe ctx ioIdx).addr = ctx.rwOp_.iovec_ ∧
    (preparedSqe ctx ioIdx).len = ctx.rwOp_.iovec_.length % 2 ^ 32 ∧
    (preparedSqe ctx ioIdx).off = (ctx.rwOp_.offset_ % (2 ^ 64 : Int)).toNat ∧
    (preparedSqe ctx ioIdx).user_data = ioIdx := by
  unfold preparedSqe io_uring_sqe_set_data64
  split <;> rename_i hd <;>
    simp [io_uring_prep_readv, io_uring_prep_writev, IOContext.rwOp, IOContext.file,
      RWOperation.dir, RWOperation.rawIov, RWOperation.iovSize, RWOperation.offset, File.fd,
      toUnsigned, toU64, UINT_MOD, SIZE_MOD, SIZE_BITS] at hd ⊢ <;> simp [hd]

theorem handleCompletion_queue_effects {s s1 : UringManager} {c : io_uring_cqe} {b : Bool}
    (h : s.handleCompletion c b = Except.ok s1) :
    s1.seen.length = s.seen.length + 1 ∧
    s.pendingIOs_.length ≤ s1.pendingIOs_.length + 1 ∧
    s1.submitted.length ≤ s.submitted.length + 1 := by
  cases hat : mapAt s.activeIOs_ c.user_data with
  | none =>
    rw [handleCompletion_none b hat] at h
    cases h
  | some ioCtx =>
    cases hp : s.pendingIOs_ with
    | nil =>
      rw [handleCompletion_nil b hat hp] at h
      injection h with h
      subst h
      simp [UringManager.afterCallback]
    | cons pendCtx rest =>
      rw [handleCompletion_cons b hat hp] at h
      injection h with h
      subst h
      cases b <;> simp [appendIOContext_false, appendIOContext_true, UringManager.afterCallback]

theorem handleCQE_queue_effects (fuel : Nat) :
    ∀ (ring : Nat → PeekResult × Bool) (s s1 : UringManager),
      s.handleCQE ring fuel = Outcome.returned s1 →
      s.seen.length ≤ s1.seen.length ∧
      s.pendingIOs_.length + s.seen.length ≤ s1.pendingIOs_.length + s1.seen.length ∧
      s1.submitted.length + s.seen.length ≤ s.submitted.length + s1.seen.length := by
  induction fuel with
  | zero =>
    intro ring s s1 h
    simp [UringManager.handleCQE] at h
  | succ fuel ih =>
    intro ring s s1 h
    rw [UringManager.handleCQE] at h
    cases h0 : (ring 0).1 with
    | eagain =>
      rw [h0] at h
      simp only at h
      injection h with h
      subst h
      omega
    | error =>
      rw [h0] at h
      simp only at h
      exact ih _ s s1 h
    | cqe c =>
      rw [h0] at h
      simp only at h
      cases hc : s.handleCompletion c (ring 0).2 with
      | error e =>
        rw [hc] at h
        cases h
      | ok s2 =>
        rw [hc] at h
        simp only at h
        obtain ⟨a1, a2, a3⟩ := ih _ s2 s1 h
        obtain ⟨e1, e2, e3⟩ := handleCompletion_queue_effects hc
        omega

theorem ringOf_tail (x : PeekResult × Bool) (l : List (PeekResult × Bool)) :
    (fun n => ringOf (x :: l) (n + 1)) = ringOf l := by
  funext n
  simp [ringOf]

theorem handleCQE_ringOf (l : List (PeekResult × Bool)) :
    ∀ (fuel : Nat) (s : UringManager), l.length < fuel →
      s.handleCQE (ringOf l) fuel = drainList l s := by
  induction l with
  | nil =>
    intro fuel s hf
    cases fuel with
    | zero => omega
    | succ fuel => simp [UringManager.handleCQE, ringOf, drainList]
  | cons x l ih =>
    intro fuel s hf
    cases fuel with
    | zero => omega
    | succ fuel =>
      have hf2 : l.length < fuel := by simpa using hf
      obtain ⟨p, b⟩ := x
      cases p with
      | eagain => simp [UringManager.handleCQE, ringOf, drainList]
      | error =>
        have h0 : ringOf ((PeekResult.error, b) :: l) 0 = (PeekResult.error, b) := by
          simp [ringOf]
        simp only [UringManager.handleCQE, h0, ringOf_tail, drainList]
        exact ih fuel s hf2
      | cqe c =>
        have h0 : ringOf ((PeekResult.cqe c, b) :: l) 0 = (PeekResult.cqe c, b) := by
          simp [ringOf]
        simp only [UringManager.handleCQE, h0, ringOf_tail, drainList]
        cases s.handleCompletion c b with
        | error e => rfl
        | ok s1 => exact ih fuel s1 hf2

theorem step_drain (l : List (PeekResult × Bool)) (s : UringManager) :
    step (Event.drain l) s = drainList l s := by
  simp [step, handleCQE_ringOf l (l.length + 1) s (Nat.lt_succ_self _)]

theorem run_append (t1 t2 : List Event) (s : UringManager) :
    run (t1 ++ t2) s =
      (match run t1 s with
       | Outcome.returned s1 => run t2 s1
       | o => o) := by
  induction t1 generalizing s with
  | nil => simp [run]
  | cons e t1 ih =>
    simp only [List.cons_append, run]
    cases step e s with
    | returned s1 => simpa using ih s1
    | threw e => rfl
    | running => rfl

theorem SIZE_MOD_eq : SIZE_MOD = 18446744073709551616 := by
  norm_num [SIZE_MOD, SIZE_BITS]

theorem mapKeys_erase (m : List (Nat × IOContext)) (i : Nat) :
    mapKeys (mapErase m i) = (mapKeys m).filter (fun k => decide (k ≠ i)) := by
  induction m with
  | nil => rfl
  | cons e m ih =>
    obtain ⟨k, c⟩ := e
    by_cases h : k = i
    · simpa [mapErase, mapKeys, h] using ih
    · simpa [mapErase, mapKeys, h] using ih

theorem mapErase_of_not_mem {m : List (Nat × IOContext)} {i : Nat} (h : i ∉ mapKeys m) :
    mapErase m i = m := by
  induction m with
  | nil => rfl
  | cons e m ih =>
    obtain ⟨k, c⟩ := e
    simp only [mapKeys, List.map_cons, List.mem_cons, not_or] at h
    have hk : ¬ k = i := fun hk => h.1 hk.symm
    have ih2 := ih (by simpa [mapKeys] using h.2)
    simp only [mapErase] at ih2 ⊢
    rw [List.filter_cons_of_pos (by simpa using hk), ih2]

theorem mapErase_perm {m : List (Nat × IOContext)} {i : Nat} {c : IOContext}
    (h : mapAt m i = some c) (hn : (mapKeys m).Nodup) :
    m.Perm ((i, c) :: mapErase m i) := by
  induction m with
  | nil => simp [mapAt] at h
  | cons e m ih =>
    obtain ⟨k, d⟩ := e
    simp only [mapKeys, List.map_cons, List.nodup_cons] at hn
    by_cases hk : k = i
    · subst hk
      simp [mapAt] at h
      subst h
      have h1 : mapErase ((k, d) :: m) k = m := by
        have := mapErase_of_not_mem (m := m) (i := k) (by simpa [mapKeys] using hn.1)
        simp only [mapErase] at this ⊢
        rw [List.filter_cons_of_neg (by simp), this]
      rw [h1]
    · simp [mapAt, hk] at h
      have h1 : mapErase ((k, d) :: m) i = (k, d) :: mapErase m i := by
        simp [mapErase, hk]
      rw [h1]
      exact ((ih h (by simpa [mapKeys] using hn.2)).cons (k, d)).trans (List.Perm.swap _ _ _)

theorem mapEmplace_fresh {m : List (Nat × IOContext)} {i : Nat} (c : IOContext)
    (h : i ∉ mapKeys m) : mapEmplace m i c = m ++ [(i, c)] := by
  simp [mapEmplace, h]

theorem mapEmplace_present {m : List (Nat × IOContext)} {i : Nat} (c : IOContext)
    (h : i ∈ mapKeys m) : mapEmplace m i c = m := by
  simp [mapEmplace, h]

theorem mapKeys_emplace_nodup {m : List (Nat × IOContext)} (i : Nat) (c : IOContext)
    (hn : (mapKeys m).Nodup) : (mapKeys (mapEmplace m i c)).Nodup := by
  by_cases h : i ∈ mapKeys m
  · rw [mapEmplace_present c h]
    exact hn
  · rw [mapEmplace_fresh c h]
    simp only [mapKeys, List.map_append, List.map_cons, List.map_nil]
    rw [List.nodup_append]
    refine ⟨hn, by simp, ?_⟩
    intro a ha hb
    simp at hb
    subst hb
    exact h ha

theorem rel_refl (s : UringManager) : Rel [] s s := by
  intro h
  exact ⟨h, le_refl _, fun _ => by simp⟩

theorem rel_trans {rs1 rs2 : List IOContext} {s s1 s2 : UringManager}
    (h1 : Rel rs1 s s1) (h2 : Rel rs2 s1 s2) : Rel (rs1 ++ rs2) s s2 := by
  intro hs
  obtain ⟨i1, l1, b1⟩ := h1 hs
  obtain ⟨i2, l2, b2⟩ := h2 i1
  refine ⟨i2, le_trans l1 l2, ?_⟩
  intro hlt
  rw [b2 hlt, b1 (lt_of_le_of_lt l2 hlt)]
  simp only [List.map_append, ← Multiset.coe_add]
  abel

theorem rel_append_false (ctx : IOContext) (s : UringManager) :
    Rel [ctx] s (s.appendIOContext false ctx) := by
  intro hs
  rw [appendIOContext_false]
  refine ⟨hs, le_refl _, ?_⟩
  intro _
  simp only [UringManager.bag, UringManager.activeRequests, UringManager.pendingRequests,
    UringManager.completedRequests, List.map_append, List.map_cons, List.map_nil,
    ← Multiset.coe_add]
  abel

theorem rel_append_true (ctx : IOContext) (s : UringManager) :
    Rel [ctx] s (s.appendIOContext true ctx) := by
  intro hs
  obtain ⟨hidx, hnd, hlt⟩ := hs
  rw [appendIOContext_true]
  refine ⟨⟨?_, mapKeys_emplace_nodup _ _ hnd, ?_⟩, by simp, ?_⟩
  · simp only [sizeSucc, List.length_append, List.length_singleton]
    rw [hidx]
    simp only [SIZE_MOD_eq]
    omega
  · intro hsucc
    simp only [List.length_append, List.length_singleton] at hsucc ⊢
    have hs0 : s.submitted.length < SIZE_MOD := by omega
    have hcur : s.currentIdx_ = s.submitted.length := by
      rw [hidx]
      exact Nat.mod_eq_of_lt hs0
    have hfresh : s.currentIdx_ ∉ mapKeys s.activeIOs_ := by
      intro hmem
      have := hlt hs0 _ hmem
      omega
    show ∀ k ∈ mapKeys (mapEmplace s.activeIOs_ s.currentIdx_ ctx), k < s.submitted.length + 1
    rw [mapEmplace_fresh ctx hfresh]
    intro k hk
    simp only [mapKeys, List.map_append, List.map_cons, List.map_nil, List.mem_append,
      List.mem_singleton] at hk
    rcases hk with hk | hk
    · have := hlt hs0 k (by simpa [mapKeys] using hk)
      omega
    · omega
  · intro hsucc
    simp only [List.length_append, List.length_singleton] at hsucc
    have hs0 : s.submitted.length < SIZE_MOD := by omega
    have hcur : s.currentIdx_ = s.submitted.length := by
      rw [hidx]
      exact Nat.mod_eq_of_lt hs0
    have hfresh : s.currentIdx_ ∉ mapKeys s.activeIOs_ := by
      intro hmem
      have := hlt hs0 _ hmem
      omega
    simp only [UringManager.bag, UringManager.activeRequests, UringManager.pendingRequests,
      UringManager.completedRequests, mapEmplace_fresh ctx hfresh, List.map_append,
      List.map_cons, List.map_nil, ← Multiset.coe_add]
    abel

theorem rel_afterCallback {s : UringManager} {cqe : io_uring_cqe} {ioCtx : IOContext}
    (h : mapAt s.activeIOs_ cqe.user_data = some ioCtx) :
    Rel [] s (s.afterCallback cqe ioCtx) := by
  intro hs
  obtain ⟨hidx, hnd, hlt⟩ := hs
  refine ⟨⟨hidx, ?_, ?_⟩, le_refl _, ?_⟩
  · show (mapKeys (mapErase s.activeIOs_ cqe.user_data)).Nodup
    rw [mapKeys_erase]
    exact hnd.filter _
  · intro hs0 k hk
    exact hlt hs0 k (mapKeys_erase_subset _ _ _ hk).1
  · intro _
    have hp := (mapErase_perm h hnd).map (fun e => requestOf e.2)
    have hm : ((s.activeIOs_.map (fun e => requestOf e.2) : List _) :
        Multiset (RWCallBack × RWOperation))
        = (((cqe.user_data, ioCtx) :: mapErase s.activeIOs_ cqe.user_data).map
            (fun e => requestOf e.2) : List _) := Multiset.coe_eq_coe.mpr hp
    unfold UringManager.bag UringManager.activeRequests UringManager.pendingRequests
      UringManager.completedRequests
    rw [hm]
    simp only [UringManager.afterCallback, List.map_append, List.map_cons, List.map_nil,
      ← Multiset.coe_add, ← Multiset.cons_coe, ← Multiset.singleton_add, requestOf,
      Multiset.coe_nil, Multiset.coe_singleton]
    abel

theorem rel_append (sqeFree : Bool) (ctx : IOContext) (s : UringManager) :
    Rel [ctx] s (s.appendIOContext sqeFree ctx) := by
  cases sqeFree with
  | false => exact rel_append_false ctx s
  | true => exact rel_append_true ctx s

theorem rel_completion {s s1 : UringManager} {cqe : io_uring_cqe} {sqeFree : Bool}
    (h : s.handleCompletion cqe sqeFree = Except.ok s1) : Rel [] s s1 := by
  cases hat : mapAt s.activeIOs_ cqe.user_data with
  | none =>
    rw [handleCompletion_none sqeFree hat] at h
    cases h
  | some ioCtx =>
    cases hp : s.pendingIOs_ with
    | nil =>
      rw [handleCompletion_nil sqeFree hat hp] at h
      injection h with h
      subst h
      exact rel_afterCallback hat
    | cons pendCtx rest =>
      rw [handleCompletion_cons sqeFree hat hp] at h
      injection h with h
      subst h
      intro hs
      obtain ⟨i0, l0, b0⟩ := rel_afterCallback hat hs
      have i0p : Inv { s.afterCallback cqe ioCtx with pendingIOs_ := rest } := i0
      obtain ⟨i1, l1, b1⟩ := rel_append sqeFree pendCtx _ i0p
      refine ⟨i1, le_trans l0 l1, ?_⟩
      intro hlt
      rw [b1 hlt]
      have hlt0 : (s.afterCallback cqe ioCtx).submitted.length < SIZE_MOD :=
        lt_of_le_of_lt l1 hlt
      have b0h := b0 hlt0
      simp only [List.map_nil, Multiset.coe_nil, add_zero] at b0h ⊢
      rw [← b0h]
      simp only [UringManager.bag, UringManager.activeRequests,
        UringManager.pendingRequests, UringManager.completedRequests,
        UringManager.afterCallback, hp, List.map_cons, List.map_nil,
        ← Multiset.cons_coe, ← Multiset.singleton_add, Multiset.coe_nil,
        Multiset.coe_singleton]
      abel

theorem rel_drain (l : List (PeekResult × Bool)) :
    ∀ {s s1 : UringManager}, drainList l s = Outcome.returned s1 → Rel [] s s1 := by
  induction l with
  | nil =>
    intro s s1 h
    simp only [drainList] at h
    injection h with h
    subst h
    exact rel_refl s
  | cons x l ih =>
    intro s s1 h
    obtain ⟨p, b⟩ := x
    cases p with
    | eagain =>
      simp only [drainList] at h
      injection h with h
      subst h
      exact rel_refl s
    | error =>
      simp only [drainList] at h
      exact ih h
    | cqe c =>
      simp only [drainList] at h
      cases hc : s.handleCompletion c b with
      | error e =>
        rw [hc] at h
        cases h
      | ok s2 =>
        rw [hc] at h
        exact rel_trans (rel_completion hc) (ih h)

theorem rel_step {e : Event} {s s1 : UringManager} (h : step e s = Outcome.returned s1) :
    Rel (requests [e]) s s1 := by
  cases e with
  | submit b ctx =>
    simp only [step] at h
    injection h with h
    subst h
    exact rel_append b ctx s
  | drain l =>
    rw [step_drain] at h
    exact rel_drain l h

theorem requests_cons (e : Event) (t : List Event) :
    requests (e :: t) = requests [e] ++ requests t := by
  cases e <;> simp [requests]

theorem rel_run (t : List Event) :
    ∀ {s s1 : UringManager}, run t s = Outcome.returned s1 → Rel (requests t) s s1 := by
  induction t with
  | nil =>
    intro s s1 h
    simp only [run] at h
    injection h with h
    subst h
    exact rel_refl s
  | cons e t ih =>
    intro s s1 h
    simp only [run] at h
    cases he : step e s with
    | returned s2 =>
      rw [he] at h
      rw [requests_cons]
      exact rel_trans (rel_step he) (ih h)
    | threw e =>
      rw [he] at h
      cases h
    | running =>
      rw [he] at h
      cases h

theorem inv_new : Inv UringManager.new := by
  refine ⟨by simp [UringManager.new], by simp [UringManager.new, mapKeys], ?_⟩
  intro _ k hk
  simp [UringManager.new, mapKeys] at hk

theorem mapAt_append_fresh {m : List (Nat × IOContext)} {i : Nat} (c : IOContext)
    (h : i ∉ mapKeys m) : mapAt (m ++ [(i, c)]) i = some c := by
  induction m with
  | nil => simp [mapAt]
  | cons e m ih =>
    obtain ⟨k, d⟩ := e
    simp only [mapKeys, List.map_cons, List.mem_cons, not_or] at h
    have hk : ¬ k = i := fun hk => h.1 hk.symm
    simp only [List.cons_append, mapAt, hk, if_false]
    exact ih (by simpa [mapKeys] using h.2)

theorem fresh_of_inv {s : UringManager} (hs : Inv s) (hlt : s.submitted.length < SIZE_MOD) :
    s.currentIdx_ = s.submitted.length ∧ s.currentIdx_ ∉ mapKeys s.activeIOs_ := by
  obtain ⟨hidx, _, hkeys⟩ := hs
  have hcur : s.currentIdx_ = s.submitted.length := by
    rw [hidx]
    exact Nat.mod_eq_of_lt hlt
  refine ⟨hcur, ?_⟩
  intro hmem
  have := hkeys hlt _ hmem
  omega

theorem completion_preserves (J : UringManager → Prop)
    (happ : ∀ b ctx s, J s → J (s.appendIOContext b ctx))
    (hcb : ∀ s cqe ioCtx, mapAt s.activeIOs_ cqe.user_data = some ioCtx → J s →
      J (s.afterCallback cqe ioCtx))
    (hpop : ∀ (s : UringManager) p rest, s.pendingIOs_ = p :: rest → J s →
      J { s with pendingIOs_ := rest })
    {s s1 : UringManager} {cqe : io_uring_cqe} {b : Bool}
    (h : s.handleCompletion cqe b = Except.ok s1) (hs : J s) : J s1 := by
  cases hat : mapAt s.activeIOs_ cqe.user_data with
  | none =>
    rw [handleCompletion_none b hat] at h
    cases h
  | some ioCtx =>
    cases hp : s.pendingIOs_ with
    | nil =>
      rw [handleCompletion_nil b hat hp] at h
      injection h with h
      subst h
      exact hcb s cqe ioCtx hat hs
    | cons pendCtx rest =>
      rw [handleCompletion_cons b hat hp] at h
      injection h with h
      subst h
      exact happ b pendCtx _ (hpop (s.afterCallback cqe ioCtx) pendCtx rest hp
        (hcb s cqe ioCtx hat hs))

theorem run_preserves (J : UringManager → Prop)
    (happ : ∀ b ctx s, J s → J (s.appendIOContext b ctx))
    (hcb : ∀ s cqe ioCtx, mapAt s.activeIOs_ cqe.user_data = some ioCtx → J s →
      J (s.afterCallback cqe ioCtx))
    (hpop : ∀ (s : UringManager) p rest, s.pendingIOs_ = p :: rest → J s →
      J { s with pendingIOs_ := rest })
    (t : List Event) :
    ∀ {s s1 : UringManager}, run t s = Outcome.returned s1 → J s → J s1 := by
  have hdrain : ∀ (l : List (PeekResult × Bool)) {s s1 : UringManager},
      drainList l s = Outcome.returned s1 → J s → J s1 := by
    intro l
    induction l with
    | nil =>
      intro s s1 h hs
      simp only [drainList] at h
      injection h with h
      subst h
      exact hs
    | cons x l ih =>
      intro s s1 h hs
      obtain ⟨p, b⟩ := x
      cases p with
      | eagain =>
        simp only [drainList] at h
        injection h with h
        subst h
        exact hs
      | error =>
        simp only [drainList] at h
        exact ih h hs
      | cqe c =>
        simp only [drainList] at h
        cases hc : s.handleCompletion c b with
        | error e =>
          rw [hc] at h
          cases h
        | ok s2 =>
          rw [hc] at h
          exact ih h (completion_preserves J happ hcb hpop hc hs)
  induction t with
  | nil =>
    intro s s1 h hs
    simp only [run] at h
    injection h with h
    subst h
    exact hs
  | cons e t ih =>
    intro s s1 h hs
    simp only [run] at h
    cases he : step e s with
    | threw x =>
      rw [he] at h
      cases h
    | running =>
      rw [he] at h
      cases h
    | returned s2 =>
      rw [he] at h
      refine ih h ?_
      cases e with
      | submit b ctx =>
        simp only [step] at he
        injection he with he
        subst he
        exact happ b ctx s hs
      | drain l =>
        rw [step_drain] at he
        exact hdrain l he hs

theorem tagged_run (t : List Event) {s : UringManager}
    (hrun : run t UringManager.new = Outcome.returned s) : Inv s ∧ Tagged s := by
  refine run_preserves (fun s => Inv s ∧ Tagged s) ?_ ?_ ?_ t hrun ?_
  · intro b ctx s hs
    obtain ⟨hinv, htag⟩ := hs
    refine ⟨(rel_append b ctx s hinv).1, ?_⟩
    cases b with
    | false =>
      rw [appendIOContext_false]
      exact htag
    | true =>
      rw [appendIOContext_true]
      intro hlt
      simp only [List.length_append, List.length_singleton] at hlt
      have hs0 : s.submitted.length < SIZE_MOD := by omega
      obtain ⟨htags, hent⟩ := htag hs0
      obtain ⟨hcur, hfresh⟩ := fresh_of_inv hinv hs0
      obtain ⟨-, -, -, -, -, hud⟩ := preparedSqe_fields ctx s.currentIdx_
      rw [hcur] at hud
      constructor
      · simp only [List.map_append, List.map_cons, List.map_nil, List.length_append,
          List.length_singleton, List.range_succ, htags, hcur, hud]
      · intro k c hk
        have hk2 : (k, c) ∈ s.activeIOs_ ++ [(s.currentIdx_, ctx)] := by
          have := mapEmplace_fresh ctx hfresh
          rw [← this]
          exact hk
        simp only [List.mem_append, List.mem_singleton, Prod.mk.injEq] at hk2
        rcases hk2 with hk2 | ⟨hk2, hc2⟩
        · have hold := hent k c hk2
          have hklt : k < s.submitted.length := by
            by_contra hge
            rw [List.getElem?_eq_none (by omega)] at hold
            cases hold
          show (s.submitted ++ [preparedSqe ctx s.currentIdx_])[k]? = some (preparedSqe c k)
          rw [List.getElem?_append_left hklt]
          exact hold
        · subst hk2
          subst hc2
          show (s.submitted ++ [preparedSqe c s.currentIdx_])[s.currentIdx_]?
            = some (preparedSqe c s.currentIdx_)
          rw [hcur]
          simp
  · intro s cqe ioCtx hat hs
    obtain ⟨hinv, htag⟩ := hs
    refine ⟨(rel_afterCallback hat hinv).1, ?_⟩
    intro hlt
    obtain ⟨htags, hent⟩ := htag hlt
    refine ⟨htags, ?_⟩
    intro k c hk
    have hk2 : (k, c) ∈ mapErase s.activeIOs_ cqe.user_data := hk
    simp only [mapErase, List.mem_filter] at hk2
    exact hent k c hk2.1
  · intro s p rest _ hs
    exact hs
  · refine ⟨inv_new, ?_⟩
    intro _
    simp [UringManager.new]

theorem own_mem {w : World} {extra : List File} {f : File} (h : Own w (f :: extra)) :
    f ∈ w.sharedPtrs := by
  have : f ∈ (w.sharedPtrs : Multiset File) := by
    rw [h]
    simp
  simpa using this

theorem own_holder_mem {w : World} {extra : List File} {f : File} (h : Own w extra)
    (hf : f ∈ w.holders) : f ∈ w.sharedPtrs := by
  have : f ∈ (w.sharedPtrs : Multiset File) := by
    rw [h]
    simp [hf]
  simpa using this

theorem own_copyPtr {w : World} {extra : List File} (f : File) (h : Own w extra) :
    Own (w.copyPtr f) (f :: extra) := by
  unfold Own at h ⊢
  show ((f :: w.sharedPtrs : List File) : Multiset File)
    = (w.holders : Multiset File) + ((f :: extra : List File) : Multiset File)
  rw [← Multiset.cons_coe, ← Multiset.cons_coe, h, Multiset.add_cons]

theorem own_dropPtr {w : World} {extra : List File} {f : File} (h : Own w (f :: extra)) :
    Own (w.dropPtr f) extra := by
  have hs : (w.dropPtr f).sharedPtrs = w.sharedPtrs.erase f := by
    unfold World.dropPtr
    split <;> rfl
  have hh : (w.dropPtr f).holders = w.holders := by
    unfold World.dropPtr
    split <;> rfl
  unfold Own at h ⊢
  rw [hs, hh, ← Multiset.coe_erase, h, ← Multiset.cons_coe, Multiset.add_cons,
    Multiset.erase_cons_head]

theorem good_copyPtr {w : World} {f : File} (hf : f ∈ w.sharedPtrs) (h : Good w) :
    Good (w.copyPtr f) := by
  obtain ⟨h1, h2, h3, h4, h5⟩ := h
  refine ⟨?_, ?_, ?_, h4, h5⟩
  · intro g hg
    have hg2 : g ∈ f :: w.sharedPtrs := hg
    rcases List.mem_cons.mp hg2 with hg3 | hg3
    · rw [hg3]
      exact h1 f hf
    · exact h1 g hg3
  · intro fd hfd
    exact List.mem_cons_of_mem _ (h2 fd hfd)
  · intro g hg
    have hg2 : g ∈ f :: w.sharedPtrs := hg
    rcases List.mem_cons.mp hg2 with hg3 | hg3
    · rw [hg3]
      exact h3 f hf
    · exact h3 g hg3

theorem good_dropPtr {w : World} {f : File} (hf : f ∈ w.sharedPtrs) (h : Good w) :
    Good (w.dropPtr f) := by
  obtain ⟨h1, h2, h3, h4, h5⟩ := h
  have hfeq := h3 f hf
  unfold World.dropPtr
  split
  · rename_i hin
    refine ⟨?_, ?_, ?_, h4, h5⟩
    · intro g hg
      exact h1 g (List.mem_of_mem_erase hg)
    · intro fd hfd
      have hm := h2 fd hfd
      by_cases hfg : File.make_shared w.addr fd = f
      · rw [hfg]
        exact hin
      · exact (List.mem_erase_of_ne hfg).mpr hm
    · intro g hg
      exact h3 g (List.mem_of_mem_erase hg)
  · rename_i hout
    refine ⟨?_, ?_, ?_, h4, h5.erase _⟩
    · intro g hg
      have hg0 : g ∈ w.sharedPtrs.erase f := hg
      have hgne : g ≠ f := by
        intro hgf
        rw [hgf] at hg0
        exact hout hg0
      have hfd : g.fd_ ≠ f.fd_ := by
        intro hfd
        apply hgne
        rw [h3 g (List.mem_of_mem_erase hg0), hfeq, hfd]
      show g.fd_ ∈ w.openFds.erase f.fd_
      exact (List.mem_erase_of_ne hfd).mpr (h1 g (List.mem_of_mem_erase hg0))
    · intro fd hfd
      have hfd0 : fd ∈ w.openFds.erase f.fd_ := hfd
      have hne : fd ≠ f.fd_ := fun heq => (h5.mem_erase_iff.mp hfd0).1 heq
      have hm := h2 fd (List.mem_of_mem_erase hfd0)
      have hfg : File.make_shared w.addr fd ≠ f := by
        intro hfg
        apply hne
        rw [← hfg]
        rfl
      show File.make_shared w.addr fd ∈ w.sharedPtrs.erase f
      exact (List.mem_erase_of_ne hfg).mpr hm
    · intro g hg
      exact h3 g (List.mem_of_mem_erase hg)

theorem appendIOContext_keys_nodup (b : Bool) (ctx : IOContext) {s : UringManager}
    (h : (mapKeys s.activeIOs_).Nodup) : (mapKeys (s.appendIOContext b ctx).activeIOs_).Nodup := by
  cases b with
  | false =>
    rw [appendIOContext_false]
    exact h
  | true =>
    rw [appendIOContext_true]
    exact mapKeys_emplace_nodup _ _ h

theorem world_append_stored (w : World) (b : Bool) (ctx : IOContext)
    (h : b = false ∨ w.mgr.currentIdx_ ∉ mapKeys w.mgr.activeIOs_) :
    w.appendIOContext b ctx =
      (({ w with mgr := w.mgr.appendIOContext b ctx } : World).copyPtr ctx.file_).dropPtr
        ctx.file_ := by
  unfold World.appendIOContext
  rcases h with h | h
  · simp [h]
  · simp [h]

theorem world_append_dropped (w : World) (ctx : IOContext)
    (h : w.mgr.currentIdx_ ∈ mapKeys w.mgr.activeIOs_) :
    w.appendIOContext true ctx =
      ({ w with mgr := w.mgr.appendIOContext true ctx } : World).dropPtr ctx.file_ := by
  unfold World.appendIOContext
  simp [h]

theorem world_append {w : World} (b : Bool) (ctx : IOContext)
    (ho : Own w [ctx.file_]) (hg : Good w) :
    Own (w.appendIOContext b ctx) [] ∧ Good (w.appendIOContext b ctx) := by
  have hf : ctx.file_ ∈ w.sharedPtrs := own_mem ho
  have hg1 : Good ({ w with mgr := w.mgr.appendIOContext b ctx } : World) :=
    ⟨hg.1, hg.2.1, hg.2.2.1, appendIOContext_keys_nodup b ctx hg.2.2.2.1, hg.2.2.2.2⟩
  by_cases hst : b = false ∨ w.mgr.currentIdx_ ∉ mapKeys w.mgr.activeIOs_
  · rw [world_append_stored w b ctx hst]
    have ho1 : Own ({ w with mgr := w.mgr.appendIOContext b ctx } : World) [] := by
      unfold Own at ho ⊢
      rw [ho]
      rcases hst with hb | hfresh
      · subst hb
        simp only [World.holders, UringManager.activeFiles, UringManager.pendingFiles,
          appendIOContext_false, List.map_append, List.map_cons, List.map_nil,
          ← Multiset.coe_add]
        abel
      · cases b with
        | false =>
          simp only [World.holders, UringManager.activeFiles, UringManager.pendingFiles,
            appendIOContext_false, List.map_append, List.map_cons, List.map_nil,
            ← Multiset.coe_add]
          abel
        | true =>
          simp only [World.holders, UringManager.activeFiles, UringManager.pendingFiles,
            appendIOContext_true, mapEmplace_fresh ctx hfresh, List.map_append,
            List.map_cons, List.map_nil, ← Multiset.coe_add]
          abel
    exact ⟨own_dropPtr (own_copyPtr ctx.file_ ho1),
      good_dropPtr (List.mem_cons_self _ _) (good_copyPtr hf hg1)⟩
  · have hb : b = true := by
      cases b with
      | false => exact absurd (Or.inl rfl) hst
      | true => rfl
    have hin : w.mgr.currentIdx_ ∈ mapKeys w.mgr.activeIOs_ := by
      by_contra hnot
      exact hst (Or.inr hnot)
    subst hb
    rw [world_append_dropped w ctx hin]
    have ho1 : Own ({ w with mgr := w.mgr.appendIOContext true ctx } : World) [ctx.file_] := by
      unfold Own at ho ⊢
      rw [ho]
      simp only [World.holders, UringManager.activeFiles, UringManager.pendingFiles,
        appendIOContext_true, mapEmplace_present ctx hin]
    exact ⟨own_dropPtr ho1, good_dropPtr hf hg1⟩

theorem world_completion {w w1 : World} {cqe : io_uring_cqe} {b : Bool}
    (h : w.handleCompletion cqe b = Except.ok w1) (ho : Own w []) (hg : Good w) :
    Own w1 [] ∧ Good w1 := by
  unfold World.handleCompletion at h
  cases hat : mapAt w.mgr.activeIOs_ (io_uring_cqe_get_data64 cqe) with
  | none =>
    rw [hat] at h
    cases h
  | some ioCtx =>
    rw [hat] at h
    have hat2 : mapAt w.mgr.activeIOs_ cqe.user_data = some ioCtx := hat
    have hperm := (mapErase_perm hat2 hg.2.2.2.1).map (fun e => e.2.file_)
    have hm : ((w.mgr.activeIOs_.map (fun e => e.2.file_) : List File) : Multiset File)
        = (((cqe.user_data, ioCtx) :: mapErase w.mgr.activeIOs_ cqe.user_data).map
            (fun e => e.2.file_) : List File) := Multiset.coe_eq_coe.mpr hperm
    have hoA : Own ({ w with mgr := w.mgr.afterCallback cqe ioCtx } : World)
        [ioCtx.file_] := by
      unfold Own at ho ⊢
      rw [ho]
      unfold World.holders UringManager.activeFiles UringManager.pendingFiles
      simp only [← Multiset.coe_add]
      rw [hm]
      simp only [UringManager.afterCallback, List.map_cons, ← Multiset.cons_coe,
        ← Multiset.singleton_add, Multiset.coe_nil, Multiset.coe_singleton]
      abel
    have hgA : Good ({ w with mgr := w.mgr.afterCallback cqe ioCtx } : World) := by
      refine ⟨hg.1, hg.2.1, hg.2.2.1, ?_, hg.2.2.2.2⟩
      show (mapKeys (mapErase w.mgr.activeIOs_ cqe.user_data)).Nodup
      rw [mapKeys_erase]
      exact hg.2.2.2.1.filter _
    have ho1 := own_dropPtr hoA
    have hg1 := good_dropPtr (own_mem hoA) hgA
    have hmgr : (({ w with mgr := w.mgr.afterCallback cqe ioCtx } : World).dropPtr
        ioCtx.file_).mgr = w.mgr.afterCallback cqe ioCtx := by
      unfold World.dropPtr
      split <;> rfl
    simp only at h
    cases hp : (({ w with mgr := w.mgr.afterCallback cqe ioCtx } : World).dropPtr
        ioCtx.file_).mgr.pendingIOs_ with
    | nil =>
      rw [hp] at h
      injection h with h
      subst h
      exact ⟨ho1, hg1⟩
    | cons pendCtx rest =>
      rw [hp] at h
      injection h with h
      subst h
      apply world_append
      · unfold Own at ho1 ⊢
        rw [ho1]
        unfold World.holders UringManager.activeFiles UringManager.pendingFiles
        rw [hp]
        simp only [List.map_cons, ← Multiset.coe_add, ← Multiset.cons_coe,
          ← Multiset.singleton_add, Multiset.coe_nil, Multiset.coe_singleton]
        abel
      · exact ⟨hg1.1, hg1.2.1, hg1.2.2.1, hg1.2.2.2.1, hg1.2.2.2.2⟩

theorem world_drain (l : List (PeekResult × Bool)) :
    ∀ {w w1 : World}, World.drainList l w = Except.ok w1 → Own w [] → Good w →
      Own w1 [] ∧ Good w1 := by
  induction l with
  | nil =>
    intro w w1 h ho hg
    simp only [World.drainList] at h
    injection h with h
    subst h
    exact ⟨ho, hg⟩
  | cons x l ih =>
    intro w w1 h ho hg
    obtain ⟨p, b⟩ := x
    cases p with
    | eagain =>
      simp only [World.drainList] at h
      injection h with h
      subst h
      exact ⟨ho, hg⟩
    | error =>
      simp only [World.drainList] at h
      exact ih h ho hg
    | cqe c =>
      simp only [World.drainList] at h
      cases hc : w.handleCompletion c b with
      | error e =>
        rw [hc] at h
        cases h
      | ok w2 =>
        rw [hc] at h
        obtain ⟨ho2, hg2⟩ := world_completion hc ho hg
        exact ih h ho2 hg2

theorem world_step {e : WorldEvent} {w w1 : World} (h : World.step e w = Except.ok w1)
    (ho : Own w []) (hg : Good w) : Own w1 [] ∧ Good w1 := by
  have hsubmit : ∀ (b : Bool) (f : File) (op : RWOperation) (cb : RWCallBack),
      f ∈ w.handles →
      Own ((w.copyPtr f).appendIOContext b { file_ := f, rwOp_ := op, callback_ := cb }) [] ∧
      Good ((w.copyPtr f).appendIOContext b { file_ := f, rwOp_ := op, callback_ := cb }) := by
    intro b f op cb hf
    have hmem : f ∈ w.sharedPtrs :=
      own_holder_mem ho (by simp [World.holders, hf])
    exact world_append b _ (own_copyPtr f ho) (good_copyPtr hmem hg)
  cases e with
  | registerFile fd =>
    simp only [World.step] at h
    injection h with h
    subst h
    unfold World.registerFile
    split
    · exact ⟨ho, hg⟩
    · rename_i hnew
      unfold UringManager.registerFile
      by_cases hfd : fd = -1
      · simp only [hfd, if_true]
        exact ⟨ho, hg⟩
      · simp only [hfd, if_false]
        obtain ⟨h1, h2, h3, h4, h5⟩ := hg
        refine ⟨?_, ?_, ?_, ?_, h4, ?_⟩
        · unfold Own at ho ⊢
          show ((File.make_shared w.addr fd :: w.sharedPtrs : List File) : Multiset File)
            = ((File.make_shared w.addr fd :: w.handles ++ w.mgr.activeFiles
                ++ w.mgr.pendingFiles : List File) : Multiset File) + (([] : List File) :
                  Multiset File)
          rw [← Multiset.cons_coe, ho]
          simp only [World.holders, List.cons_append, ← Multiset.cons_coe, Multiset.cons_add]
        · intro g hg
          have hg2 : g ∈ File.make_shared w.addr fd :: w.sharedPtrs := hg
          show g.fd_ ∈ fd :: w.openFds
          rcases List.mem_cons.mp hg2 with hg3 | hg3
          · rw [hg3]
            exact List.mem_cons_self _ _
          · exact List.mem_cons_of_mem _ (h1 g hg3)
        · intro fd2 hfd2
          have hfd3 : fd2 ∈ fd :: w.openFds := hfd2
          show File.make_shared w.addr fd2 ∈ File.make_shared w.addr fd :: w.sharedPtrs
          rcases List.mem_cons.mp hfd3 with hfd4 | hfd4
          · rw [hfd4]
            exact List.mem_cons_self _ _
          · exact List.mem_cons_of_mem _ (h2 fd2 hfd4)
        · intro g hg
          have hg2 : g ∈ File.make_shared w.addr fd :: w.sharedPtrs := hg
          show g = File.make_shared w.addr g.fd_
          rcases List.mem_cons.mp hg2 with hg3 | hg3
          · rw [hg3]
            rfl
          · exact h3 g hg3
        · show (fd :: w.openFds).Nodup
          exact List.nodup_cons.mpr ⟨hnew, h5⟩
  | copyHandle f =>
    simp only [World.step] at h
    injection h with h
    subst h
    unfold World.copyHandle
    split
    · rename_i hf
      have hmem : f ∈ w.sharedPtrs := own_holder_mem ho (by simp [World.holders, hf])
      constructor
      · unfold Own at ho ⊢
        show ((f :: w.sharedPtrs : List File) : Multiset File)
          = ((f :: w.handles ++ w.mgr.activeFiles ++ w.mgr.pendingFiles : List File) :
              Multiset File) + (([] : List File) : Multiset File)
        rw [← Multiset.cons_coe, ho]
        simp only [World.holders, List.cons_append, ← Multiset.cons_coe, Multiset.cons_add]
      · exact good_copyPtr (w := { w with handles := f :: w.handles }) hmem
          ⟨hg.1, hg.2.1, hg.2.2.1, hg.2.2.2.1, hg.2.2.2.2⟩
    · exact ⟨ho, hg⟩
  | dropHandle f =>
    simp only [World.step] at h
    injection h with h
    subst h
    unfold World.dropHandle
    split
    · rename_i hf
      have hmem : f ∈ w.sharedPtrs := own_holder_mem ho (by simp [World.holders, hf])
      have hperm : ((w.handles : List File) : Multiset File)
          = ((f :: w.handles.erase f : List File) : Multiset File) :=
        Multiset.coe_eq_coe.mpr (List.perm_cons_erase hf)
      have ho1 : Own ({ w with handles := w.handles.erase f } : World) [f] := by
        unfold Own at ho ⊢
        rw [ho]
        unfold World.holders
        simp only [← Multiset.coe_add]
        rw [hperm]
        simp only [← Multiset.cons_coe, ← Multiset.singleton_add, Multiset.coe_nil,
          Multiset.coe_singleton]
        abel
      exact ⟨own_dropPtr ho1,
        good_dropPtr (w := { w with handles := w.handles.erase f }) hmem
          ⟨hg.1, hg.2.1, hg.2.2.1, hg.2.2.2.1, hg.2.2.2.2⟩⟩
    · exact ⟨ho, hg⟩
  | submit b f op cb =>
    simp only [World.step] at h
    split at h
    · rename_i hf
      injection h with h
      subst h
      exact hsubmit b f op cb hf
    · injection h with h
      subst h
      exact ⟨ho, hg⟩
  | asyncRW b f op cb =>
    simp only [World.step] at h
    split at h
    · rename_i hf
      unfold World.asyncRW File.shared_from_this at h
      by_cases hweak : f.weak_this_ = true
      · simp only [hweak, if_true] at h
        injection h with h
        subst h
        exact hsubmit b f op cb hf
      · simp only [hweak] at h
        injection h with h
        subst h
        exact ⟨ho, hg⟩
    · injection h with h
      subst h
      exact ⟨ho, hg⟩
  | drain l =>
    simp only [World.step] at h
    exact world_drain l h ho hg

theorem world_run (t : List WorldEvent) :
    ∀ {w w1 : World}, World.run t w = Except.ok w1 → Own w [] → Good w →
      Own w1 [] ∧ Good w1 := by
  induction t with
  | nil =>
    intro w w1 h ho hg
    simp only [World.run] at h
    injection h with h
    subst h
    exact ⟨ho, hg⟩
  | cons e t ih =>
    intro w w1 h ho hg
    simp only [World.run] at h
    cases he : World.step e w with
    | error x =>
      rw [he] at h
      cases h
    | ok w2 =>
      rw [he] at h
      obtain ⟨ho2, hg2⟩ := world_step he ho hg
      exact ih h ho2 hg2

theorem world_new (addr : Nat) : Own (World.new addr) [] ∧ Good (World.new addr) := by
  refine ⟨?_, ?_, ?_, ?_, ?_, ?_⟩ <;>
    simp [Own, World.new, World.holders, UringManager.activeFiles,
      UringManager.pendingFiles, UringManager.new, mapKeys]

theorem world_completion_mgr (w : World) (cqe : io_uring_cqe) (b : Bool) :
    (match w.handleCompletion cqe b with
     | Except.ok w1 => Except.ok w1.mgr
     | Except.error e => Except.error e) = w.mgr.handleCompletion cqe b := by
  have hdrop : ∀ (v : World) (f : File), (v.dropPtr f).mgr = v.mgr := by
    intro v f
    unfold World.dropPtr
    split <;> rfl
  have happ : ∀ (v : World) (c : IOContext),
      (v.appendIOContext b c).mgr = v.mgr.appendIOContext b c := by
    intro v c
    unfold World.appendIOContext
    simp only [hdrop]
    split <;> rfl
  unfold World.handleCompletion
  cases hat : mapAt w.mgr.activeIOs_ (io_uring_cqe_get_data64 cqe) with
  | none =>
    have hat2 : mapAt w.mgr.activeIOs_ cqe.user_data = none := hat
    simp only [handleCompletion_none b hat2]
  | some ioCtx =>
    have hat2 : mapAt w.mgr.activeIOs_ cqe.user_data = some ioCtx := hat
    simp only [hdrop]
    cases hp : w.mgr.pendingIOs_ with
    | nil =>
      have hp2 : (w.mgr.afterCallback cqe ioCtx).pendingIOs_ = [] := hp
      rw [handleCompletion_nil b hat2 hp]
      simp only [hp2, hdrop]
    | cons pendCtx rest =>
      have hp2 : (w.mgr.afterCallback cqe ioCtx).pendingIOs_ = pendCtx :: rest := hp
      rw [handleCompletion_cons b hat2 hp]
      simp only [hp2, happ, hdrop]

theorem world_append_mgr (w : World) (b : Bool) (ctx : IOContext) :
    (w.appendIOContext b ctx).mgr = w.mgr.appendIOContext b ctx := by
  have hdrop : ∀ (v : World) (f : File), (v.dropPtr f).mgr = v.mgr := by
    intro v f
    unfold World.dropPtr
    split <;> rfl
  unfold World.appendIOContext
  simp only [hdrop]
  split <;> rfl

theorem world_drain_mgr (l : List (PeekResult × Bool)) :
    ∀ w : World,
      (match World.drainList l w with
       | Except.ok w1 => Outcome.returned w1.mgr
       | Except.error e => Outcome.threw e) = drainList l w.mgr := by
  induction l with
  | nil =>
    intro w
    simp [World.drainList, drainList]
  | cons x l ih =>
    intro w
    obtain ⟨p, b⟩ := x
    cases p with
    | eagain => simp [World.drainList, drainList]
    | error =>
      simp only [World.drainList, drainList]
      exact ih w
    | cqe c =>
      have hm := world_completion_mgr w c b
      simp only [World.drainList, drainList]
      cases hc : w.handleCompletion c b with
      | error e =>
        rw [hc] at hm
        simp only at hm
        rw [← hm]
      | ok w2 =>
        rw [hc] at hm
        simp only at hm
        rw [← hm]
        exact ih w2

/-- On every handle `registerFile` hands out, `asyncRW` as written throws
`std::bad_weak_ptr` before a context is built: the `enable_shared_from_this` base of
`File` is private, so `make_shared` leaves the weak self-reference empty. -/
theorem asyncRW_on_registered_file_throws (mgr : Nat) (fd : Int) (op : RWOperation)
    (callBack : RWCallBack) (sqeFree : Bool) (s : UringManager) :
    match UringManager.registerFile mgr fd with
    | none => fd = -1
    | some f => f.asyncRW op callBack sqeFree s = Except.error Exception.bad_weak_ptr := by
  unfold UringManager.registerFile
  by_cases h : fd = -1
  · simp [h]
  · simp [h, File.asyncRW, File.shared_from_this, File.make_shared, File.esftBaseAccessible]

theorem requests_append (t1 t2 : List Event) :
    requests (t1 ++ t2) = requests t1 ++ requests t2 := by
  induction t1 with
  | nil => rfl
  | cons e t1 ih =>
    cases e <;> simp [requests, ih]

theorem requests_churn_length (c : IOContext) (n : Nat) :
    (requests (churn c n)).length = n := by
  induction n with
  | zero => rfl
  | succ n ih => simp [churn, requests_append, requests, ih]

theorem requests_longRun_length (c0 c1 : IOContext) (n : Nat) :
    (requests (longRun c0 c1 n)).length = n + 1 := by
  simp [longRun, requests, requests_churn_length]

theorem run_longRun (c0 c1 : IOContext) (n : Nat) (hn : n < SIZE_MOD) :
    ∃ s, run (longRun c0 c1 n) UringManager.new = Outcome.returned s ∧
      s.activeIOs_ = [(0, c0)] ∧ s.currentIdx_ = (n + 1) % SIZE_MOD ∧
      s.pendingIOs_ = [] ∧ s.invoked.length = n ∧ s.submitted.length = n + 1 ∧
      s.submitted.head? = some (preparedSqe c0 0) ∧
      (∀ c ∈ s.seen, c.user_data ≠ 0) := by
  induction n with
  | zero =>
    refine ⟨_, rfl, ?_, ?_, ?_, ?_, ?_, ?_, ?_⟩ <;>
      simp [appendIOContext_true, UringManager.new, mapEmplace, mapKeys, sizeSucc]
  | succ n ih =>
    obtain ⟨s, hrun, hact, hidx, hpend, hinv, hsub, hhead, hseen⟩ := ih (by omega)
    have hn1 : (n + 1) % SIZE_MOD = n + 1 := Nat.mod_eq_of_lt hn
    rw [hn1] at hidx
    have hlong : longRun c0 c1 (n + 1) = longRun c0 c1 n ++
        [Event.submit true c1,
         Event.drain [(PeekResult.cqe { user_data := n + 1, res := 0 }, false)]] := by
      simp [longRun, churn]
    rw [hlong, run_append, hrun]
    have hsubmit : s.appendIOContext true c1 =
        { s with currentIdx_ := sizeSucc (n + 1),
                 submitted := s.submitted ++ [preparedSqe c1 (n + 1)],
                 activeIOs_ := [(0, c0), (n + 1, c1)] } := by
      rw [appendIOContext_true, hact, hidx]
      simp [mapEmplace, mapKeys]
    have hat : mapAt (s.appendIOContext true c1).activeIOs_
        (io_uring_cqe.mk (n + 1) 0).user_data = some c1 := by
      rw [hsubmit]
      simp [mapAt]
    have hdone := handleCompletion_nil false hat (by rw [hsubmit]; exact hpend)
    refine ⟨(s.appendIOContext true c1).afterCallback { user_data := n + 1, res := 0 } c1,
      ?_, ?_, ?_, ?_, ?_, ?_, ?_, ?_⟩
    · simp only [run, step, Outcome.returned.injEq]
      simp [UringManager.handleCQE, ringOf, hdone]
    · rw [hsubmit]
      simp [UringManager.afterCallback, mapErase]
    · rw [hsubmit]
      simp [UringManager.afterCallback, sizeSucc]
    · rw [hsubmit]
      simpa [UringManager.afterCallback] using hpend
    · rw [hsubmit]
      simp [UringManager.afterCallback, hinv]
    · rw [hsubmit]
      simp [UringManager.afterCallback, hsub]
    · rw [hsubmit]
      have hne : s.submitted ≠ [] := by
        intro h0
        rw [h0] at hsub
        simp at hsub
      simp only [UringManager.afterCallback]
      rw [List.head?_append_of_ne_nil _ hne]
      exact hhead
    · rw [hsubmit]
      intro c hc
      simp only [UringManager.afterCallback, List.mem_append, List.mem_singleton] at hc
      rcases hc with hc | hc
      · exact hseen c hc
      · rw [hc]
        simp

theorem run_wrapped (c0 c1 : IOContext) :
    ∃ s, run (longRun c0 c1 WRAP) UringManager.new = Outcome.returned s ∧
      s.activeIOs_ = [(0, c0)] ∧ s.currentIdx_ = 0 ∧
      s.pendingIOs_ = [] ∧ s.invoked.length = WRAP ∧ s.submitted.length = WRAP + 1 ∧
      s.submitted.head? = some (preparedSqe c0 0) ∧
      (∀ c ∈ s.seen, c.user_data ≠ 0) := by
  obtain ⟨s, h1, h2, h3, h4, h5, h6⟩ :=
    run_longRun c0 c1 WRAP (by rw [SIZE_MOD_eq]; decide)
  refine ⟨s, h1, h2, ?_, h4, h5, h6⟩
  rw [h3, SIZE_MOD_eq]
  decide

theorem handleCompletion_effects {s s1 : UringManager} {c : io_uring_cqe} {b : Bool}
    (h : s.handleCompletion c b = Except.ok s1) :
    s1.seen = s.seen ++ [c] ∧ s1.invoked.length = s.invoked.length + 1 := by
  cases hat : mapAt s.activeIOs_ c.user_data with
  | none =>
    rw [handleCompletion_none b hat] at h
    cases h
  | some ioCtx =>
    cases hp : s.pendingIOs_ with
    | nil =>
      rw [handleCompletion_nil b hat hp] at h
      injection h with h
      subst h
      simp [UringManager.afterCallback]
    | cons pendCtx rest =>
      rw [handleCompletion_cons b hat hp] at h
      injection h with h
      subst h
      cases b <;> simp [appendIOContext_false, appendIOContext_true, UringManager.afterCallback]

theorem handleCQE_not_running (n : Nat) :
    ∀ (ring : Nat → PeekResult × Bool) (s : UringManager),
      (ring n).1 = PeekResult.eagain → s.handleCQE ring (n + 1) ≠ Outcome.running := by
  induction n with
  | zero =>
    intro ring s hn
    simp [UringManager.handleCQE, hn]
  | succ n ih =>
    intro ring s hn
    have hshift : ((fun i => ring (i + 1)) n).1 = PeekResult.eagain := hn
    rw [UringManager.handleCQE]
    cases h0 : (ring 0).1 with
    | eagain => simp
    | error =>
      simp only
      exact ih _ s hshift
    | cqe c =>
      simp only
      cases s.handleCompletion c (ring 0).2 with
      | error e => simp
      | ok s2 =>
        simp only
        exact ih _ s2 hshift

theorem handleCQE_returned (fuel : Nat) :
    ∀ (ring : Nat → PeekResult × Bool) (s s1 : UringManager),
      s.handleCQE ring fuel = Outcome.returned s1 →
      ∃ m, m < fuel ∧ (ring m).1 = PeekResult.eagain ∧
        (∀ i, i < m → (ring i).1 ≠ PeekResult.eagain) ∧
        s1.seen = s.seen ++ peeked ring m ∧
        s1.invoked.length = s.invoked.length + (peeked ring m).length := by
  induction fuel with
  | zero =>
    intro ring s s1 h
    simp [UringManager.handleCQE] at h
  | succ fuel ih =>
    intro ring s s1 h
    rw [UringManager.handleCQE] at h
    cases h0 : (ring 0).1 with
    | eagain =>
      rw [h0] at h
      simp only at h
      injection h with h
      subst h
      exact ⟨0, by omega, h0, by intro i hi; omega, by simp [peeked], by simp [peeked]⟩
    | error =>
      rw [h0] at h
      simp only at h
      obtain ⟨m, hm, he, hmin, hseen, hinv⟩ := ih _ s s1 h
      refine ⟨m + 1, by omega, he, ?_, ?_, ?_⟩
      · intro i hi
        cases i with
        | zero => simp [h0]
        | succ i => exact hmin i (by omega)
      · simp only [peeked, h0, List.nil_append]
        exact hseen
      · simp only [peeked, h0, List.nil_append]
        exact hinv
    | cqe c =>
      rw [h0] at h
      simp only at h
      cases hc : s.handleCompletion c (ring 0).2 with
      | error e =>
        rw [hc] at h
        cases h
      | ok s2 =>
        rw [hc] at h
        simp only at h
        obtain ⟨m, hm, he, hmin, hseen, hinv⟩ := ih _ s2 s1 h
        obtain ⟨e1, e2⟩ := handleCompletion_effects hc
        refine ⟨m + 1, by omega, he, ?_, ?_, ?_⟩
        · intro i hi
          cases i with
          | zero => simp [h0]
          | succ i => exact hmin i (by omega)
        · simp only [peeked, h0]
          rw [hseen, e1]
          simp
        · simp only [peeked, h0]
          rw [hinv, e2]
          simp
          omega

theorem handleCQE_failingRing (fuel : Nat) :
    ∀ s : UringManager, s.handleCQE failingRing fuel = Outcome.running := by
  induction fuel with
  | zero =>
    intro s
    rfl
  | succ fuel ih =>
    intro s
    rw [UringManager.handleCQE]
    exact ih s

/-! # Theorems -/

/-! ## C1: accounting for requests -/

/-- C1 (amended): in every run from the empty engine that returns (each completion
carries an active index) and in which fewer than `2 ^ 64` entries have been submitted,
the requests in the active map, in the pending queue and those whose callback was called
are together a rearrangement of the requests issued; so their numbers add up to the
number issued, and when the issued requests are pairwise distinct no callback was called
twice and no completed request is still held. -/
theorem requests_accounted_once_below_wraparound (t : List Event) (s : UringManager)
    (hrun : run t UringManager.new = Outcome.returned s)
    (hlt : s.submitted.length < SIZE_MOD) :
    (s.activeRequests ++ s.pendingRequests ++ s.completedRequests).Perm
      ((requests t).map requestOf) ∧
    s.activeIOs_.length + s.pendingIOs_.length + s.invoked.length = (requests t).length ∧
    (((requests t).map requestOf).Nodup →
      s.completedRequests.Nodup ∧
      (s.activeRequests ++ s.pendingRequests ++ s.completedRequests).Nodup ∧
      ∀ r ∈ s.completedRequests, r ∉ s.activeRequests ∧ r ∉ s.pendingRequests) := by
  obtain ⟨_, _, hbag⟩ := rel_run t hrun inv_new
  have hb := hbag hlt
  have hperm : (s.activeRequests ++ s.pendingRequests ++ s.completedRequests).Perm
      ((requests t).map requestOf) := by
    apply Multiset.coe_eq_coe.mp
    simp only [UringManager.bag, Multiset.coe_add] at hb
    rw [hb]
    simp [UringManager.new, UringManager.activeRequests, UringManager.pendingRequests,
      UringManager.completedRequests]
  refine ⟨hperm, ?_, ?_⟩
  · have := hperm.length_eq
    simp only [UringManager.activeRequests, UringManager.pendingRequests,
      UringManager.completedRequests, List.length_append, List.length_map] at this
    omega
  · intro hnd
    have hall := hperm.nodup_iff.mpr hnd
    refine ⟨?_, hall, ?_⟩
    · exact (List.nodup_append.mp hall).2.1
    · intro r hr
      have hd := (List.nodup_append.mp hall).2.2
      constructor
      · intro h1
        exact hd (List.mem_append_left _ h1) hr
      · intro h1
        exact hd (List.mem_append_right _ h1) hr

/-- The accounting of C1 on `exampleRun`, which goes through the pending queue. -/
theorem requests_accounted_once_below_wraparound_witness :
    run exampleRun UringManager.new = Outcome.returned exampleEnd ∧
    exampleEnd.submitted.length < SIZE_MOD ∧
    (exampleEnd.activeRequests ++ exampleEnd.pendingRequests ++
      exampleEnd.completedRequests).Perm ((requests exampleRun).map requestOf) ∧
    exampleEnd.activeIOs_.length + exampleEnd.pendingIOs_.length + exampleEnd.invoked.length
      = (requests exampleRun).length :=
  ⟨by decide, by decide,
    (requests_accounted_once_below_wraparound exampleRun exampleEnd (by decide) (by decide)).1,
    (requests_accounted_once_below_wraparound exampleRun exampleEnd (by decide)
      (by decide)).2.1⟩

/-- C1 fails as stated: request 0 stays in flight while `2 ^ 64 - 1` further requests
are issued and completed, so the counter is back at 0; one more request, issued with a
free entry, is then neither in the active map, nor in the pending queue, nor completed:
the run returns, yet the three numbers add up to one less than the number of requests
issued. -/
theorem requests_lost_after_wraparound :
    ∃ s, run (longRun (exampleCtx 0) (exampleCtx 1) WRAP ++ [Event.submit true (exampleCtx 2)])
        UringManager.new = Outcome.returned s ∧
      s.activeIOs_ = [(0, exampleCtx 0)] ∧ s.pendingIOs_ = [] ∧
      s.activeIOs_.length + s.pendingIOs_.length + s.invoked.length + 1 =
        (requests (longRun (exampleCtx 0) (exampleCtx 1) WRAP ++
          [Event.submit true (exampleCtx 2)])).length := by
  obtain ⟨s, h1, h2, h3, h4, h5, _⟩ := run_wrapped (exampleCtx 0) (exampleCtx 1)
  have hsub : s.appendIOContext true (exampleCtx 2) =
      { s with currentIdx_ := sizeSucc s.currentIdx_,
               submitted := s.submitted ++ [preparedSqe (exampleCtx 2) s.currentIdx_],
               activeIOs_ := [(0, exampleCtx 0)] } := by
    rw [appendIOContext_true, h2, h3]
    simp [mapEmplace, mapKeys]
  refine ⟨s.appendIOContext true (exampleCtx 2), ?_, ?_, ?_, ?_⟩
  · rw [run_append, h1]
    simp [run, step]
  · rw [hsub]
  · rw [hsub]
    exact h4
  · rw [hsub, requests_append, List.length_append, requests_longRun_length]
    simp [h4, h5, requests]
    omega

/-! ## C2: one completion -/

/-- C2: for a completion whose index is a key of the active map, the loop body of
`handleCQE` succeeds and makes exactly one callback call, that of the callback stored
under the index, with the result of the completion as it is (whatever its sign) and with
the descriptor stored under the index; the entry is erased (the map is the erased one,
to which the resubmission of one pending request may add the entry of that request) and
the completion is marked seen. A call of `handleCQE` that peeks this completion and then
finds nothing available returns the same state. -/
theorem handleCQE_completion_runs_stored_callback (s : UringManager) (cqe : io_uring_cqe)
    (sqeFree : Bool) (ioCtx : IOContext)
    (h : mapAt s.activeIOs_ cqe.user_data = some ioCtx) :
    ∃ s1 : UringManager,
      s.handleCompletion cqe sqeFree = Except.ok s1 ∧
      s.handleCQE (ringOf [(PeekResult.cqe cqe, sqeFree)]) 2 = Outcome.returned s1 ∧
      s1.invoked = s.invoked ++
        [{ callback := ioCtx.callback_, retval := cqe.res, op := ioCtx.rwOp_ }] ∧
      s1.seen = s.seen ++ [cqe] ∧
      mapAt (mapErase s.activeIOs_ cqe.user_data) cqe.user_data = none ∧
      (s1.activeIOs_ = mapErase s.activeIOs_ cqe.user_data ∨
        ∃ pendCtx, s.pendingIOs_.head? = some pendCtx ∧ sqeFree = true ∧
          s1.activeIOs_ =
            mapEmplace (mapErase s.activeIOs_ cqe.user_data) s.currentIdx_ pendCtx) := by
  have hpass : ∀ s1, s.handleCompletion cqe sqeFree = Except.ok s1 →
      s.handleCQE (ringOf [(PeekResult.cqe cqe, sqeFree)]) 2 = Outcome.returned s1 := by
    intro s1 h1
    simp [UringManager.handleCQE, ringOf, h1]
  cases hp : s.pendingIOs_ with
  | nil =>
    have h1 : s.handleCompletion cqe sqeFree = Except.ok
        { s with invoked := s.invoked ++
                  [{ callback := ioCtx.callback_, retval := cqe.res, op := ioCtx.rwOp_ }],
                 activeIOs_ := mapErase s.activeIOs_ cqe.user_data,
                 seen := s.seen ++ [cqe] } := by
      simp [UringManager.handleCompletion, io_uring_cqe_get_data64, h, hp,
        IOContext.runCallBack]
    exact ⟨_, h1, hpass _ h1, rfl, rfl, mapAt_erase_self _ _, Or.inl rfl⟩
  | cons pendCtx rest =>
    cases sqeFree with
    | false =>
      have h1 : s.handleCompletion cqe false = Except.ok
          { s with invoked := s.invoked ++
                    [{ callback := ioCtx.callback_, retval := cqe.res, op := ioCtx.rwOp_ }],
                   activeIOs_ := mapErase s.activeIOs_ cqe.user_data,
                   seen := s.seen ++ [cqe],
                   pendingIOs_ := rest ++ [pendCtx] } := by
        simp [UringManager.handleCompletion, io_uring_cqe_get_data64, h, hp,
          IOContext.runCallBack, UringManager.appendIOContext, runInLoop]
      exact ⟨_, h1, hpass _ h1, rfl, rfl, mapAt_erase_self _ _, Or.inl rfl⟩
    | true =>
      refine ⟨(UringManager.appendIOContext true pendCtx
          { s with invoked := s.invoked ++
                    [{ callback := ioCtx.callback_, retval := cqe.res, op := ioCtx.rwOp_ }],
                   activeIOs_ := mapErase s.activeIOs_ cqe.user_data,
                   seen := s.seen ++ [cqe],
                   pendingIOs_ := rest }), ?_, ?_, ?_, ?_, mapAt_erase_self _ _, ?_⟩
      · simp [UringManager.handleCompletion, io_uring_cqe_get_data64, h, hp,
          IOContext.runCallBack]
      · apply hpass
        simp [UringManager.handleCompletion, io_uring_cqe_get_data64, h, hp,
          IOContext.runCallBack]
      · simp [UringManager.appendIOContext, runInLoop]
      · simp [UringManager.appendIOContext, runInLoop]
      · right
        exact ⟨pendCtx, by simp, rfl, by simp [UringManager.appendIOContext, runInLoop]⟩

/-- The completion of C2 on `exampleMid`, with the negative result -5. -/
theorem handleCQE_completion_runs_stored_callback_witness :
    mapAt exampleMid.activeIOs_ (io_uring_cqe.mk 0 (-5)).user_data = some (exampleCtx 0) ∧
    ∃ s1 : UringManager,
      exampleMid.handleCompletion (io_uring_cqe.mk 0 (-5)) true = Except.ok s1 ∧
      s1.invoked = exampleMid.invoked ++
        [{ callback := (exampleCtx 0).callback_, retval := -5, op := (exampleCtx 0).rwOp_ }] ∧
      mapAt (mapErase exampleMid.activeIOs_ 0) 0 = none := by
  refine ⟨by decide, ?_⟩
  obtain ⟨s1, h1, _, h3, _, h5, _⟩ :=
    handleCQE_completion_runs_stored_callback exampleMid (io_uring_cqe.mk 0 (-5)) true
      (exampleCtx 0) (by decide)
  exact ⟨s1, h1, h3, h5⟩

/-! ## C3: submission without a free entry -/

/-- C3: when `io_uring_get_sqe` yields no entry, `appendIOContext` returns normally
with the request appended at the back of the pending queue, which grows by exactly one;
the active map, the index counter, the entries handed to the ring, the completions seen
and the callback calls made are unchanged. -/
theorem appendIOContext_without_slot_queues (ctx : IOContext) (s : UringManager) :
    step (Event.submit false ctx) s = Outcome.returned (s.appendIOContext false ctx) ∧
    (s.appendIOContext false ctx).pendingIOs_ = s.pendingIOs_ ++ [ctx] ∧
    (s.appendIOContext false ctx).pendingIOs_.length = s.pendingIOs_.length + 1 ∧
    (s.appendIOContext false ctx).activeIOs_ = s.activeIOs_ ∧
    (s.appendIOContext false ctx).currentIdx_ = s.currentIdx_ ∧
    (s.appendIOContext false ctx).invoked = s.invoked ∧
    (s.appendIOContext false ctx).submitted = s.submitted ∧
    (s.appendIOContext false ctx).seen = s.seen := by
  simp [step, UringManager.appendIOContext, runInLoop]

/-! ## C4: file handles -/

/-- C4: in every world reached from a fresh manager by registering files, copying and
letting go of handles, handing requests to `appendIOContext`, calling `asyncRW` and
running `handleCQE`, the descriptor of each file referenced by an entry of the active map
or of the pending queue is open, and so is that of each file the application holds,
whether or not the application still holds a handle to the file of an entry. The shared
pointers that exist are exactly those of the application and of the entries (the use
count of a file is the number of its holders), every open descriptor belongs to a file
that has a holder, and a file whose descriptor is not open has none: the descriptor is
closed when, and only when, the last holder is gone. The manager inside the world takes
the steps of the manager alone: those of `appendIOContext` and of `handleCQE`. -/
theorem file_open_while_referenced (addr : Nat) (t : List WorldEvent) (w : World)
    (hrun : World.run t (World.new addr) = Except.ok w) :
    (∀ e ∈ w.mgr.activeIOs_, e.2.file_.fd_ ∈ w.openFds) ∧
    (∀ c ∈ w.mgr.pendingIOs_, c.file_.fd_ ∈ w.openFds) ∧
    (∀ h ∈ w.handles, h.fd_ ∈ w.openFds) ∧
    w.sharedPtrs.Perm (w.handles ++ w.mgr.activeFiles ++ w.mgr.pendingFiles) ∧
    (∀ f, w.useCount f
      = w.handles.count f + w.mgr.activeFiles.count f + w.mgr.pendingFiles.count f) ∧
    (∀ fd ∈ w.openFds, ∃ f, f.fd_ = fd ∧
      (f ∈ w.handles ∨ f ∈ w.mgr.activeFiles ∨ f ∈ w.mgr.pendingFiles)) ∧
    (∀ f : File, f.fd_ ∉ w.openFds →
      f ∉ w.handles ∧ f ∉ w.mgr.activeFiles ∧ f ∉ w.mgr.pendingFiles) ∧
    (∀ b ctx, (w.appendIOContext b ctx).mgr = w.mgr.appendIOContext b ctx) ∧
    (∀ l : List (PeekResult × Bool),
      (match World.drainList l w with
       | Except.ok w1 => Outcome.returned w1.mgr
       | Except.error e => Outcome.threw e) = w.mgr.handleCQE (ringOf l) (l.length + 1)) := by
  obtain ⟨ho, hg⟩ := world_run t hrun (world_new addr).1 (world_new addr).2
  obtain ⟨h1, h2, _, _, _⟩ := hg
  have hperm : w.sharedPtrs.Perm (w.handles ++ w.mgr.activeFiles ++ w.mgr.pendingFiles) := by
    apply Multiset.coe_eq_coe.mp
    unfold Own at ho
    rw [ho]
    simp [World.holders]
  have hheld : ∀ f, f ∈ w.handles ∨ f ∈ w.mgr.activeFiles ∨ f ∈ w.mgr.pendingFiles →
      f.fd_ ∈ w.openFds := by
    intro f hf
    apply h1 f
    apply hperm.mem_iff.mpr
    simp only [List.mem_append]
    tauto
  refine ⟨?_, ?_, ?_, hperm, ?_, ?_, ?_, fun b ctx => world_append_mgr w b ctx, ?_⟩
  · intro e he
    exact hheld _ (Or.inr (Or.inl (List.mem_map.mpr ⟨e, he, rfl⟩)))
  · intro c hc
    exact hheld _ (Or.inr (Or.inr (List.mem_map.mpr ⟨c, hc, rfl⟩)))
  · intro h hh
    exact hheld _ (Or.inl hh)
  · intro f
    unfold World.useCount
    rw [hperm.count_eq]
    simp only [List.count_append]
  · intro fd hfd
    have hm := hperm.mem_iff.mp (h2 fd hfd)
    simp only [List.mem_append] at hm
    exact ⟨File.make_shared w.addr fd, rfl, by tauto⟩
  · intro f hf
    refine ⟨fun hin => hf (hheld f (Or.inl hin)), fun hin => hf (hheld f (Or.inr (Or.inl hin))),
      fun hin => hf (hheld f (Or.inr (Or.inr hin)))⟩
  · intro l
    rw [world_drain_mgr l w, handleCQE_ringOf l (l.length + 1) w.mgr (Nat.lt_succ_self _)]

/-- The lifetime of C4 on `exampleWorldRun`: the file is registered on descriptor 3, two
requests on it are handed over and the application lets go of its handle at once; the
application holds nothing, the file has two owners (the active entry and the pending
request) and descriptor 3 is open. It is still open when the first request has completed
and the second has been resubmitted, and it is closed when the second has completed. -/
theorem file_open_while_referenced_witness :
    World.run exampleWorldRun (World.new 1) = Except.ok (exampleWorld exampleWorldRun) ∧
    (exampleWorld exampleWorldRun).handles = [] ∧
    (exampleWorld exampleWorldRun).mgr.activeFiles = [exampleHandle] ∧
    (exampleWorld exampleWorldRun).mgr.pendingFiles = [exampleHandle] ∧
    (∀ e ∈ (exampleWorld exampleWorldRun).mgr.activeIOs_,
      e.2.file_.fd_ ∈ (exampleWorld exampleWorldRun).openFds) ∧
    (∀ c ∈ (exampleWorld exampleWorldRun).mgr.pendingIOs_,
      c.file_.fd_ ∈ (exampleWorld exampleWorldRun).openFds) ∧
    (exampleWorld exampleWorldRun).useCount exampleHandle = 2 ∧
    (exampleWorld exampleWorldRun).openFds = [3] ∧
    (exampleWorld exampleWorldRun1).mgr.activeFiles = [exampleHandle] ∧
    (exampleWorld exampleWorldRun1).mgr.pendingFiles = [] ∧
    (exampleWorld exampleWorldRun1).openFds = [3] ∧
    (exampleWorld exampleWorldRun2).mgr.activeFiles = [] ∧
    (exampleWorld exampleWorldRun2).openFds = [] :=
  ⟨rfl, by decide, by decide, by decide,
    (file_open_while_referenced 1 exampleWorldRun (exampleWorld exampleWorldRun) rfl).1,
    (file_open_while_referenced 1 exampleWorldRun (exampleWorld exampleWorldRun) rfl).2.1,
    ((file_open_while_referenced 1 exampleWorldRun (exampleWorld exampleWorldRun)
      rfl).2.2.2.2.1 exampleHandle).trans (by decide),
    by decide, by decide, by decide, by decide, by decide, by decide⟩

/-! ## C5: request descriptors -/

/-- C5: a descriptor built from `(dir, offset, seg0)` reports that direction and offset
and holds exactly the segment `seg0`; after appending the segments `segs` one by one with
`appendIOVec`, `iovSize` is `segs.length + 1`, `rawIov` reads `seg0` followed by `segs` in
order, and direction and offset are unchanged. -/
theorem RWOperation_segments_in_order (dir : Dir) (offset : Int) (seg0 : iovec)
    (segs : List iovec) :
    (RWOperation.new dir offset seg0).dir = dir ∧
    (RWOperation.new dir offset seg0).offset = offset ∧
    (RWOperation.new dir offset seg0).rawIov = [seg0] ∧
    (RWOperation.new dir offset seg0).iovSize = 1 ∧
    (segs.foldl RWOperation.appendIOVec (RWOperation.new dir offset seg0)).iovSize
      = segs.length + 1 ∧
    (segs.foldl RWOperation.appendIOVec (RWOperation.new dir offset seg0)).rawIov
      = seg0 :: segs ∧
    (segs.foldl RWOperation.appendIOVec (RWOperation.new dir offset seg0)).dir = dir ∧
    (segs.foldl RWOperation.appendIOVec (RWOperation.new dir offset seg0)).offset = offset := by
  obtain ⟨h1, h2, h3⟩ := foldl_appendIOVec segs (RWOperation.new dir offset seg0)
  refine ⟨rfl, rfl, rfl, rfl, ?_, ?_, ?_, ?_⟩
  · rw [RWOperation.iovSize, h3]
    simp [RWOperation.new]
  · rw [RWOperation.rawIov, h3]
    simp [RWOperation.new]
  · rw [RWOperation.dir, h1]
    rfl
  · rw [RWOperation.offset, h2]
    rfl

/-! ## C6: correlation indices -/

/-- C6 (amended): in every state reached from the empty engine by a run that returns,
as long as fewer than `2 ^ 64` entries have been submitted: the entries submitted carry
the tags `0, 1, 2, ...` in order, so the correlation indices in use are pairwise distinct;
every entry of the active map is the request for which the entry tagged with its key was
prepared, and the keys are pairwise distinct; the counter equals the number of entries
submitted, every key is smaller than it and no entry submitted so far carries it, so the
index the next submission takes is not in use, and recording the new entry adds it under
that index. -/
theorem allocated_index_fresh_below_wraparound (t : List Event) (s : UringManager)
    (hrun : run t UringManager.new = Outcome.returned s)
    (hlt : s.submitted.length < SIZE_MOD) :
    s.submitted.map (fun e => e.user_data) = List.range s.submitted.length ∧
    (s.submitted.map (fun e => e.user_data)).Nodup ∧
    (∀ k c, (k, c) ∈ s.activeIOs_ → s.submitted[k]? = some (preparedSqe c k)) ∧
    (mapKeys s.activeIOs_).Nodup ∧
    s.currentIdx_ = s.submitted.length ∧
    (∀ k ∈ mapKeys s.activeIOs_, k < s.currentIdx_) ∧
    s.currentIdx_ ∉ s.submitted.map (fun e => e.user_data) ∧
    s.currentIdx_ ∉ mapKeys s.activeIOs_ ∧
    ∀ ctx, (s.appendIOContext true ctx).activeIOs_ = s.activeIOs_ ++ [(s.currentIdx_, ctx)] ∧
      mapAt (s.appendIOContext true ctx).activeIOs_ s.currentIdx_ = some ctx := by
  obtain ⟨hinv, htag⟩ := tagged_run t hrun
  obtain ⟨htags, hent⟩ := htag hlt
  obtain ⟨hcur, hfresh⟩ := fresh_of_inv hinv hlt
  refine ⟨htags, ?_, hent, hinv.2.1, hcur, ?_, ?_, hfresh, ?_⟩
  · rw [htags]
    exact List.nodup_range _
  · intro k hk
    rw [hcur]
    exact hinv.2.2 hlt k hk
  · rw [htags, hcur]
    simp
  · intro ctx
    rw [appendIOContext_true]
    show mapEmplace s.activeIOs_ s.currentIdx_ ctx = s.activeIOs_ ++ [(s.currentIdx_, ctx)] ∧
      mapAt (mapEmplace s.activeIOs_ s.currentIdx_ ctx) s.currentIdx_ = some ctx
    rw [mapEmplace_fresh ctx hfresh]
    exact ⟨rfl, mapAt_append_fresh ctx hfresh⟩

/-- The freshness of C6 in the state in which `exampleRun` ends: two entries were
submitted, tagged 0 and 1; request 1 is active under 1; the counter is 2. -/
theorem allocated_index_fresh_below_wraparound_witness :
    run exampleRun UringManager.new = Outcome.returned exampleEnd ∧
    exampleEnd.submitted.length < SIZE_MOD ∧
    exampleEnd.submitted.map (fun e => e.user_data) = [0, 1] ∧
    exampleEnd.activeIOs_ = [(1, exampleCtx 1)] ∧
    exampleEnd.submitted[1]? = some (preparedSqe (exampleCtx 1) 1) ∧
    exampleEnd.currentIdx_ = 2 ∧
    exampleEnd.currentIdx_ ∉ mapKeys exampleEnd.activeIOs_ :=
  ⟨by decide, by decide,
    (allocated_index_fresh_below_wraparound exampleRun exampleEnd (by decide)
      (by decide)).1.trans (by decide),
    by decide,
    (allocated_index_fresh_below_wraparound exampleRun exampleEnd (by decide)
      (by decide)).2.2.1 1 (exampleCtx 1) (by decide),
    (allocated_index_fresh_below_wraparound exampleRun exampleEnd (by decide)
      (by decide)).2.2.2.2.1.trans (by decide),
    (allocated_index_fresh_below_wraparound exampleRun exampleEnd (by decide)
      (by decide)).2.2.2.2.2.2.2.1⟩

/-- C6 fails as stated: request 0 stays in flight while `2 ^ 64 - 1` further requests are
issued and completed; in the state reached the counter is 0, which is a key of the active
map (that of request 0). The next submission with a free entry hands the ring a second
entry tagged 0 while the first is still in flight (no completion seen carries 0), and
records nothing: the entry under 0 remains request 0. -/
theorem allocated_index_in_use_after_wraparound :
    ∃ s, run (longRun (exampleCtx 0) (exampleCtx 1) WRAP) UringManager.new
        = Outcome.returned s ∧
      s.currentIdx_ ∈ mapKeys s.activeIOs_ ∧
      mapAt s.activeIOs_ s.currentIdx_ = some (exampleCtx 0) ∧
      mapAt (s.appendIOContext true (exampleCtx 2)).activeIOs_ s.currentIdx_
        = some (exampleCtx 0) ∧
      s.submitted.head? = some (preparedSqe (exampleCtx 0) 0) ∧
      (s.appendIOContext true (exampleCtx 2)).submitted
        = s.submitted ++ [preparedSqe (exampleCtx 2) 0] ∧
      (preparedSqe (exampleCtx 0) 0).user_data = 0 ∧
      (preparedSqe (exampleCtx 2) 0).user_data = 0 ∧
      (∀ c ∈ (s.appendIOContext true (exampleCtx 2)).seen, c.user_data ≠ 0) ∧
      ¬ ((s.appendIOContext true (exampleCtx 2)).submitted.map
          (fun e => e.user_data)).Nodup := by
  obtain ⟨s, h1, h2, h3, _, _, hlen, hhead, hseen⟩ :=
    run_wrapped (exampleCtx 0) (exampleCtx 1)
  have hsub : (s.appendIOContext true (exampleCtx 2)).submitted
      = s.submitted ++ [preparedSqe (exampleCtx 2) 0] := by
    rw [appendIOContext_true, h3]
  refine ⟨s, h1, ?_, ?_, ?_, hhead, hsub, by decide, by decide, ?_, ?_⟩
  · rw [h2, h3]
    simp [mapKeys]
  · rw [h2, h3]
    simp [mapAt]
  · rw [appendIOContext_true, h2, h3]
    simp [mapEmplace, mapKeys, mapAt]
  · rw [appendIOContext_true]
    exact hseen
  · rw [hsub]
    cases hsubm : s.submitted with
    | nil =>
      rw [hsubm] at hhead
      simp at hhead
    | cons e rest =>
      rw [hsubm] at hhead
      simp only [List.head?_cons, Option.some.injEq] at hhead
      subst hhead
      intro hnd
      simp only [List.cons_append, List.map_cons, List.map_append, List.map_nil,
        List.nodup_cons, List.mem_append, List.mem_map, List.mem_singleton] at hnd
      exact hnd.1 (Or.inr (by decide))

/-! ## C7: the size of the active map -/

/-- C8 (amended): with a free entry, `appendIOContext` submits exactly one entry: a
vectored read for `READ`, a vectored write for `WRITE`, on the descriptor of the file,
over the segment list of the request, with the segment count as an `unsigned` and the
offset as a `__u64`, tagged with the current counter; the counter becomes its successor
modulo `2 ^ 64`; the pending queue, the completions seen and the callback calls are
unchanged. All of this holds in every state. Provided the counter is not already a key of
the active map, exactly one entry is added to the map, under that index, holding the same
file, descriptor and callback, and the entries already there stay. -/
theorem appendIOContext_with_slot_submits_and_records (ctx : IOContext) (s : UringManager) :
    ∃ sqe : io_uring_sqe,
      (s.appendIOContext true ctx).submitted = s.submitted ++ [sqe] ∧
      sqe.opcode = (if ctx.rwOp.dir = Dir.READ then Opcode.READV else Opcode.WRITEV) ∧
      sqe.fd = ctx.file.fd ∧
      sqe.addr = ctx.rwOp.rawIov ∧
      sqe.len = ctx.rwOp.iovSize % 2 ^ 32 ∧
      (ctx.rwOp.iovSize < 2 ^ 32 → sqe.len = ctx.rwOp.iovSize) ∧
      sqe.off = (ctx.rwOp.offset % (2 ^ 64 : Int)).toNat ∧
      (0 ≤ ctx.rwOp.offset → ctx.rwOp.offset < 2 ^ 64 → (sqe.off : Int) = ctx.rwOp.offset) ∧
      sqe.user_data = s.currentIdx_ ∧
      (s.appendIOContext true ctx).currentIdx_ = (s.currentIdx_ + 1) % 2 ^ 64 ∧
      (s.currentIdx_ + 1 < 2 ^ 64 →
        (s.appendIOContext true ctx).currentIdx_ = s.currentIdx_ + 1) ∧
      (s.appendIOContext true ctx).pendingIOs_ = s.pendingIOs_ ∧
      (s.appendIOContext true ctx).invoked = s.invoked ∧
      (s.appendIOContext true ctx).seen = s.seen ∧
      (s.currentIdx_ ∉ mapKeys s.activeIOs_ →
        (s.appendIOContext true ctx).activeIOs_ = s.activeIOs_ ++ [(s.currentIdx_, ctx)] ∧
        (s.appendIOContext true ctx).activeIOs_.length = s.activeIOs_.length + 1 ∧
        mapAt (s.appendIOContext true ctx).activeIOs_ s.currentIdx_ = some ctx) := by
  obtain ⟨hop, hfd, haddr, hlen, hoff, hud⟩ := preparedSqe_fields ctx s.currentIdx_
  have hidx : (s.appendIOContext true ctx).currentIdx_ = (s.currentIdx_ + 1) % 2 ^ 64 := by
    rw [appendIOContext_true]
    rfl
  refine ⟨preparedSqe ctx s.currentIdx_, ?_, hop, hfd, haddr, hlen, ?_, hoff, ?_, hud,
    hidx, ?_, ?_, ?_, ?_, ?_⟩
  · rw [appendIOContext_true]
  · intro hsmall
    rw [hlen]
    exact Nat.mod_eq_of_lt hsmall
  · intro h0 h1
    rw [hoff]
    have hmod : ctx.rwOp.offset % (2 ^ 64 : Int) = ctx.rwOp.offset := Int.emod_eq_of_lt h0 h1
    have hmod2 : ctx.rwOp_.offset_ % (2 ^ 64 : Int) = ctx.rwOp.offset := hmod
    rw [hmod2]
    exact Int.toNat_of_nonneg h0
  · intro hsmall
    rw [hidx]
    exact Nat.mod_eq_of_lt hsmall
  · rw [appendIOContext_true]
  · rw [appendIOContext_true]
  · rw [appendIOContext_true]
  · intro hfresh
    have hact : (s.appendIOContext true ctx).activeIOs_
        = s.activeIOs_ ++ [(s.currentIdx_, ctx)] := by
      rw [appendIOContext_true]
      exact mapEmplace_fresh ctx hfresh
    refine ⟨hact, ?_, ?_⟩
    · rw [hact]
      simp
    · rw [hact]
      exact mapAt_append_fresh ctx hfresh

/-- The submission of C8 on `exampleMid`, where request 0 is active and the counter is 1,
for a write of two segments at offset 4096: one `WRITEV` entry tagged 1 is submitted and
the request is recorded under 1, next to request 0. -/
theorem appendIOContext_with_slot_submits_and_records_witness :
    exampleMid.currentIdx_ ∉ mapKeys exampleMid.activeIOs_ ∧
    (∃ sqe : io_uring_sqe,
      (exampleMid.appendIOContext true exampleWriteCtx).submitted
        = exampleMid.submitted ++ [sqe] ∧
      sqe.opcode = Opcode.WRITEV ∧ sqe.fd = 3 ∧
      sqe.addr = [{ iov_base := 8192, iov_len := 13 }, { iov_base := 12288, iov_len := 7 }] ∧
      sqe.len = 2 ∧ sqe.off = 4096 ∧ sqe.user_data = 1 ∧
      (exampleMid.appendIOContext true exampleWriteCtx).currentIdx_ = 2 ∧
      (exampleMid.appendIOContext true exampleWriteCtx).pendingIOs_ = [exampleCtx 1] ∧
      (exampleMid.appendIOContext true exampleWriteCtx).activeIOs_
        = [(0, exampleCtx 0), (1, exampleWriteCtx)]) := by
  refine ⟨by decide, ?_⟩
  obtain ⟨sqe, hsub, hop, hfd, haddr, hlen, _, hoff, _, hud, hidx, _, hpend, _, _, hrec⟩ :=
    appendIOContext_with_slot_submits_and_records exampleWriteCtx exampleMid
  exact ⟨sqe, hsub, hop.trans (by decide), hfd.trans (by decide), haddr.trans (by decide),
    hlen.trans (by decide), hoff.trans (by decide), hud.trans (by decide),
    hidx.trans (by decide), hpend.trans (by decide), (hrec (by decide)).1.trans (by decide)⟩

/-- C8 fails as stated: request 0 stays in flight while `2 ^ 64 - 1` further requests are
issued and completed; in the state reached a submission with a free entry leaves the
active map as it is, so no entry is recorded for the new request. -/
theorem appendIOContext_records_nothing_after_wraparound :
    ∃ s, run (longRun (exampleCtx 0) (exampleCtx 1) WRAP) UringManager.new
        = Outcome.returned s ∧
      (s.appendIOContext true (exampleCtx 2)).activeIOs_ = s.activeIOs_ ∧
      (s.appendIOContext true (exampleCtx 2)).activeIOs_.length = s.activeIOs_.length ∧
      (s.currentIdx_, exampleCtx 2) ∉ (s.appendIOContext true (exampleCtx 2)).activeIOs_ := by
  obtain ⟨s, h1, h2, h3, _, _, _⟩ := run_wrapped (exampleCtx 0) (exampleCtx 1)
  have hact : (s.appendIOContext true (exampleCtx 2)).activeIOs_ = s.activeIOs_ := by
    rw [appendIOContext_true, h2, h3]
    simp [mapEmplace, mapKeys]
  refine ⟨s, h1, hact, by rw [hact], ?_⟩
  rw [hact, h2, h3]
  decide

/-! ## C9: resubmission of pending requests -/

/-- C9: in the loop body of `handleCQE`, after the completed entry is erased: with an
empty pending queue nothing is submitted (queue, counter and submitted entries stay as
they are); with a non-empty queue exactly the front request is popped and handed to
`appendIOContext`; if that finds no free entry the request goes back to the tail, behind
the rest in its order, so the length of the queue is unchanged, and if it finds one the
queue is the rest in its order, one entry, tagged with the counter, is submitted and the
request is recorded under the counter. A call of `handleCQE` that peeks this completion
and then finds nothing available returns exactly that state, and a call over any finite
list of answers is the succession of these passes. In every case at most one request
leaves the queue and at most one entry is submitted; and over a whole call of `handleCQE`
that returns, no more requests leave the queue and no more entries are submitted than
completions are marked seen. -/
theorem handleCQE_promotes_one_pending_in_order (s : UringManager) (cqe : io_uring_cqe)
    (sqeFree : Bool) (ioCtx : IOContext)
    (h : mapAt s.activeIOs_ cqe.user_data = some ioCtx) :
    (s.pendingIOs_ = [] →
      ∃ s1, s.handleCompletion cqe sqeFree = Except.ok s1 ∧
        s.handleCQE (ringOf [(PeekResult.cqe cqe, sqeFree)]) 2 = Outcome.returned s1 ∧
        s1.pendingIOs_ = [] ∧
        s1.submitted = s.submitted ∧ s1.currentIdx_ = s.currentIdx_ ∧
        s1.activeIOs_ = mapErase s.activeIOs_ cqe.user_data) ∧
    (∀ pendCtx rest, s.pendingIOs_ = pendCtx :: rest →
      s.handleCompletion cqe sqeFree = Except.ok
        (UringManager.appendIOContext sqeFree pendCtx
          { s.afterCallback cqe ioCtx with pendingIOs_ := rest }) ∧
      (sqeFree = false →
        ∃ s1, s.handleCompletion cqe sqeFree = Except.ok s1 ∧
          s.handleCQE (ringOf [(PeekResult.cqe cqe, sqeFree)]) 2 = Outcome.returned s1 ∧
          s1.pendingIOs_ = rest ++ [pendCtx] ∧
          s1.pendingIOs_.length = s.pendingIOs_.length ∧
          s1.submitted = s.submitted ∧ s1.currentIdx_ = s.currentIdx_ ∧
          s1.activeIOs_ = mapErase s.activeIOs_ cqe.user_data) ∧
      (sqeFree = true →
        ∃ s1 sqe, s.handleCompletion cqe sqeFree = Except.ok s1 ∧
          s.handleCQE (ringOf [(PeekResult.cqe cqe, sqeFree)]) 2 = Outcome.returned s1 ∧
          s1.pendingIOs_ = rest ∧
          s1.submitted = s.submitted ++ [sqe] ∧ sqe.user_data = s.currentIdx_ ∧
          sqe.fd = pendCtx.file.fd ∧ sqe.addr = pendCtx.rwOp.rawIov ∧
          s1.activeIOs_ =
            mapEmplace (mapErase s.activeIOs_ cqe.user_data) s.currentIdx_ pendCtx)) ∧
    (∀ s1, s.handleCompletion cqe sqeFree = Except.ok s1 →
      s.pendingIOs_.length ≤ s1.pendingIOs_.length + 1 ∧
      s1.submitted.length ≤ s.submitted.length + 1) ∧
    (∀ (l : List (PeekResult × Bool)) (fuel : Nat), l.length < fuel →
      s.handleCQE (ringOf l) fuel = drainList l s) ∧
    (∀ (ring : Nat → PeekResult × Bool) (fuel : Nat) (s2 : UringManager),
      s.handleCQE ring fuel = Outcome.returned s2 →
        s.pendingIOs_.length + s.seen.length ≤ s2.pendingIOs_.length + s2.seen.length ∧
        s2.submitted.length + s.seen.length ≤ s.submitted.length + s2.seen.length) := by
  refine ⟨?_, ?_, ?_, fun l fuel hl => handleCQE_ringOf l fuel s hl,
    fun ring fuel s2 h2 => (handleCQE_queue_effects fuel ring s s2 h2).2⟩
  · intro hp
    exact ⟨_, handleCompletion_nil sqeFree h hp,
      handleCQE_single (handleCompletion_nil sqeFree h hp),
      by simp [UringManager.afterCallback, hp], rfl, rfl, rfl⟩
  · intro pendCtx rest hp
    refine ⟨handleCompletion_cons sqeFree h hp, ?_, ?_⟩
    · intro hb
      subst hb
      refine ⟨_, handleCompletion_cons false h hp,
        handleCQE_single (handleCompletion_cons false h hp), ?_, ?_, ?_, ?_, ?_⟩ <;>
        simp [UringManager.appendIOContext, runInLoop, UringManager.afterCallback, hp]
    · intro hb
      subst hb
      obtain ⟨-, hfd, haddr, -, -, hud⟩ := preparedSqe_fields pendCtx s.currentIdx_
      refine ⟨_, preparedSqe pendCtx s.currentIdx_, handleCompletion_cons true h hp,
        handleCQE_single (handleCompletion_cons true h hp), ?_, ?_, hud, hfd, haddr, ?_⟩
      · simp [appendIOContext_true]
      · simp [appendIOContext_true, UringManager.afterCallback]
      · simp [appendIOContext_true, UringManager.afterCallback]
  · intro s1 h1
    cases hp : s.pendingIOs_ with
    | nil =>
      rw [handleCompletion_nil sqeFree h hp] at h1
      injection h1 with h1
      subst h1
      simp [UringManager.afterCallback]
    | cons pendCtx rest =>
      rw [handleCompletion_cons sqeFree h hp] at h1
      injection h1 with h1
      subst h1
      cases sqeFree <;>
        simp [UringManager.appendIOContext, runInLoop, UringManager.afterCallback, hp]

/-- The resubmission of C9 on `exampleQueued`, where request 0 is active, the counter is
1 and requests 1, 2, 3 wait in this order. When the completion of request 0 finds a free
entry, request 1 (the front) is submitted with tag 1 and recorded under 1, and 2, 3 stay
in order; when it finds none, request 1 goes behind 3. -/
theorem handleCQE_promotes_one_pending_in_order_witness :
    mapAt exampleQueued.activeIOs_ (io_uring_cqe.mk 0 13).user_data = some (exampleCtx 0) ∧
    exampleQueued.pendingIOs_ = exampleCtx 1 :: [exampleCtx 2, exampleCtx 3] ∧
    (∃ s1 sqe, exampleQueued.handleCompletion (io_uring_cqe.mk 0 13) true = Except.ok s1 ∧
      exampleQueued.handleCQE (ringOf [(PeekResult.cqe (io_uring_cqe.mk 0 13), true)]) 2
        = Outcome.returned s1 ∧
      s1.pendingIOs_ = [exampleCtx 2, exampleCtx 3] ∧
      s1.submitted = exampleQueued.submitted ++ [sqe] ∧ sqe.user_data = 1 ∧
      s1.activeIOs_ = [(1, exampleCtx 1)]) ∧
    (∃ s1, exampleQueued.handleCompletion (io_uring_cqe.mk 0 13) false = Except.ok s1 ∧
      exampleQueued.handleCQE (ringOf [(PeekResult.cqe (io_uring_cqe.mk 0 13), false)]) 2
        = Outcome.returned s1 ∧
      s1.pendingIOs_ = [exampleCtx 2, exampleCtx 3, exampleCtx 1] ∧
      s1.submitted = exampleQueued.submitted ∧
      s1.activeIOs_ = []) := by
  refine ⟨by decide, by decide, ?_, ?_⟩
  · obtain ⟨s1, sqe, h1, h2, h3, h4, h5, _, _, h8⟩ :=
      ((handleCQE_promotes_one_pending_in_order exampleQueued (io_uring_cqe.mk 0 13) true
        (exampleCtx 0) (by decide)).2.1 (exampleCtx 1) [exampleCtx 2, exampleCtx 3]
        (by decide)).2.2 rfl
    exact ⟨s1, sqe, h1, h2, h3, h4, h5.trans (by decide), h8.trans (by decide)⟩
  · obtain ⟨s1, h1, h2, h3, _, h5, _, h7⟩ :=
      ((handleCQE_promotes_one_pending_in_order exampleQueued (io_uring_cqe.mk 0 13) false
        (exampleCtx 0) (by decide)).2.1 (exampleCtx 1) [exampleCtx 2, exampleCtx 3]
        (by decide)).2.1 rfl
    exact ⟨s1, h1, h2, h3.trans (by decide), h5, h7.trans (by decide)⟩

/-! ## C10: termination of handleCQE -/

/-- C10 (amended): `handleCQE` never waits, and it ends whenever the ring eventually
reports that nothing is available: if the peek of pass `n` answers `-EAGAIN`, the call
has ended (returned, or thrown `std::out_of_range` on an index that is not active) after
at most `n + 1` passes, whatever completions and other error codes were answered before.
It returns only on `-EAGAIN`, and when it returns every completion peeked before has been
marked seen, in order, with one callback call each. -/
theorem handleCQE_ends_when_peek_reports_none (ring : Nat → PeekResult × Bool) (n : Nat)
    (s : UringManager) (hn : (ring n).1 = PeekResult.eagain) :
    s.handleCQE ring (n + 1) ≠ Outcome.running ∧
    ∀ (fuel : Nat) (s1 : UringManager), s.handleCQE ring fuel = Outcome.returned s1 →
      ∃ m, m ≤ n ∧ (ring m).1 = PeekResult.eagain ∧
        (∀ i, i < m → (ring i).1 ≠ PeekResult.eagain) ∧
        s1.seen = s.seen ++ peeked ring m ∧
        s1.invoked.length = s.invoked.length + (peeked ring m).length := by
  refine ⟨handleCQE_not_running n ring s hn, ?_⟩
  intro fuel s1 h
  obtain ⟨m, _, he, hmin, hseen, hinv⟩ := handleCQE_returned fuel ring s s1 h
  refine ⟨m, ?_, he, hmin, hseen, hinv⟩
  by_contra hlt
  exact hmin n (by omega) hn

/-- The termination of C10 on `exampleMid` with one completion available. -/
theorem handleCQE_ends_when_peek_reports_none_witness :
    (ringOf [(PeekResult.cqe (io_uring_cqe.mk 0 13), true)] 1).1 = PeekResult.eagain ∧
    exampleMid.handleCQE (ringOf [(PeekResult.cqe (io_uring_cqe.mk 0 13), true)]) (1 + 1)
      ≠ Outcome.running ∧
    exampleMid.handleCQE (ringOf [(PeekResult.cqe (io_uring_cqe.mk 0 13), true)]) (1 + 1)
      = Outcome.returned exampleEnd ∧
    exampleEnd.seen = exampleMid.seen ++ [io_uring_cqe.mk 0 13] :=
  ⟨by decide,
    (handleCQE_ends_when_peek_reports_none
      (ringOf [(PeekResult.cqe (io_uring_cqe.mk 0 13), true)]) 1 exampleMid (by decide)).1,
    by decide, by decide⟩

/-- C10 fails as stated: when `io_uring_peek_cqe` answers an error code other than
`-EAGAIN` at every call, the loop only logs and peeks again; no number of passes ends the
call. -/
theorem handleCQE_runs_forever_on_failing_peek :
    ¬ ∃ fuel : Nat, UringManager.new.handleCQE failingRing fuel ≠ Outcome.running := by
  rintro ⟨fuel, h⟩
  exact h (handleCQE_failingRing fuel UringManager.new)

end muduo.file
